import Mathlib

/-!
Verification of the RESP (Redis wire protocol) support of brpc
(`src/brpc/redis.h`): the pipelined command encoder (`RedisRequest`), the
incremental multi-reply decoder (`RedisResponse`), and the per-connection
command-dispatch / transaction state machine (`RedisService` and
`RedisCommandHandler`).

Byte streams are modelled as `List Nat` (one `Nat` per byte).  The header
`redis.h` is the only source file present; the function bodies implemented in
`redis.cpp` / `redis_protocol.cpp` are absent, so those operations are
modelled from the specification (each such definition carries a doc comment
starting with `Modelled from the spec:`).  The inline body of
`RedisResponse::reply` is present in the header and is embedded verbatim.
-/

namespace BrpcRedis

/-- Modelled from the spec: the tagged-union reply value (`RedisMessage`,
declared in the absent `redis_message.h`).  Variants per spec section 3:
`Nil | SimpleString | Error | Integer | BulkString(bytes, nullable) |
Array(sequence, nullable)`.  `nil` is the default-constructed sentinel value
(`static RedisMessage redis_nil` in `redis.h`); a nil bulk string is
`bulkString none`, a nil array is `array none`, an empty array is
`array (some [])` — three distinct values. -/
inductive RedisMessage where
  | nil
  | simpleString (s : List Nat)
  | error (s : List Nat)
  | integer (i : Int)
  | bulkString (b : Option (List Nat))
  | array (a : Option (List RedisMessage))

/-- The parse result codes of `brpc/parse_result.h` that
`RedisResponse::ConsumePartialIOBuf` can return, per the comment in
`redis.h` lines 172-175. -/
inductive ParseError where
  | PARSE_OK
  | PARSE_ERROR_NOT_ENOUGH_DATA
  | PARSE_ERROR_ABSOLUTELY_WRONG
deriving DecidableEq

/-- Outcome of parsing one reply from the front of a byte stream.
`outOfFuel` is an artefact of the fuel-based embedding; it is proved
unreachable at the canonical fuel (`parse_nofuel`). -/
inductive ParseOne where
  | ok (m : RedisMessage) (rest : List Nat)
  | needMore
  | malformed
  | outOfFuel

/-- Outcome of parsing a counted sequence of replies (the elements of a RESP
array) from the front of a byte stream. -/
inductive ParseMany where
  | ok (ms : List RedisMessage) (rest : List Nat)
  | needMore
  | malformed
  | outOfFuel

/-- Modelled from the spec: split a stream at the first CRLF, returning the
line and the remainder after the CRLF; `none` when no CRLF is present yet
(more data is needed).  All RESP scalar forms are line-terminated by CRLF. -/
def readLine : List Nat → Option (List Nat × List Nat)
  | [] => none
  | [_] => none
  | b1 :: b2 :: rest =>
    if b1 = 13 ∧ b2 = 10 then some ([], rest)
    else
      match readLine (b2 :: rest) with
      | none => none
      | some (l, r) => some (b1 :: l, r)

/-- ASCII decimal digit test. -/
def isDigit (b : Nat) : Bool := decide (48 ≤ b ∧ b ≤ 57)

/-- Numeric value of a list of ASCII digits (most significant first). -/
def digitsVal (l : List Nat) : Nat :=
  l.foldl (fun a b => a * 10 + (b - 48)) 0

/-- Parse an unsigned decimal numeral; `none` when empty or any byte is not
an ASCII digit. -/
def digitsToNat (l : List Nat) : Option Nat :=
  if l.isEmpty then none
  else if l.all isDigit then some (digitsVal l) else none

/-- Modelled from the spec: parse a signed decimal length/count field
(`:`-integer, `$`-length, `*`-count lines); a non-numeric field is a parse
failure (`none`). -/
def parseIntBytes (l : List Nat) : Option Int :=
  match l with
  | [] => none
  | b :: t =>
    if b = 45 then (digitsToNat t).map fun n => -(n : Int)
    else (digitsToNat (b :: t)).map fun n => (n : Int)

/-- Modelled from the spec: parse the remainder of a line-shaped reply
(SimpleString after `+`, Error after `-`). -/
def parseLineAfter (mk : List Nat → RedisMessage) (rest : List Nat) : ParseOne :=
  match readLine rest with
  | none => .needMore
  | some (line, r) => .ok (mk line) r

/-- Modelled from the spec: parse the remainder of an Integer reply after the
`:` prefix — a signed decimal line. -/
def parseIntegerAfter (rest : List Nat) : ParseOne :=
  match readLine rest with
  | none => .needMore
  | some (line, r) =>
    match parseIntBytes line with
    | none => .malformed
    | some i => .ok (.integer i) r

/-- Modelled from the spec: parse the remainder of a BulkString reply after
the `$` prefix — `$<len>\r\n<len bytes>\r\n`, with `len = -1` a nil bulk
string, `len < -1` malformed, a non-numeric length malformed. -/
def parseBulkAfter (rest : List Nat) : ParseOne :=
  match readLine rest with
  | none => .needMore
  | some (line, r) =>
    match parseIntBytes line with
    | none => .malformed
    | some len =>
      if len = -1 then .ok (.bulkString none) r
      else if len < -1 then .malformed
      else
        if r.length < len.toNat + 2 then .needMore
        else
          match r.drop len.toNat with
          | 13 :: 10 :: r2 => .ok (.bulkString (some (r.take len.toNat))) r2
          | _ => .malformed

mutual

/-- Modelled from the spec: parse one RESP reply from the front of the
stream (the grammar of spec section 4.2, implemented by the absent
`redis_message.cpp`).  Prefixes: `+` SimpleString, `-` Error, `:` Integer,
`$` BulkString, `*` Array (`count = -1` nil array, `count < -1` malformed,
recursively parsed elements); any other prefix byte is malformed; an empty
stream needs more data.  `fuel` bounds the recursion depth and is proved
sufficient at the canonical value. -/
def parseOneF : Nat → List Nat → ParseOne
  | 0, _ => .outOfFuel
  | _ + 1, [] => .needMore
  | f + 1, c :: rest =>
    if c = 43 then parseLineAfter RedisMessage.simpleString rest
    else if c = 45 then parseLineAfter RedisMessage.error rest
    else if c = 58 then parseIntegerAfter rest
    else if c = 36 then parseBulkAfter rest
    else if c = 42 then
      match readLine rest with
      | none => .needMore
      | some (line, r) =>
        match parseIntBytes line with
        | none => .malformed
        | some cnt =>
          if cnt = -1 then .ok (.array none) r
          else if cnt < -1 then .malformed
          else
            match parseElemsF f cnt.toNat r with
            | .ok ms rest2 => .ok (.array (some ms)) rest2
            | .needMore => .needMore
            | .malformed => .malformed
            | .outOfFuel => .outOfFuel
    else .malformed

/-- Modelled from the spec: parse `cnt` consecutive RESP replies (the
elements of an array) from the front of the stream. -/
def parseElemsF : Nat → Nat → List Nat → ParseMany
  | _, 0, input => .ok [] input
  | 0, _ + 1, _ => .outOfFuel
  | f + 1, cnt + 1, input =>
    match parseOneF f input with
    | .ok m rest =>
      match parseElemsF f cnt rest with
      | .ok ms rest2 => .ok (m :: ms) rest2
      | .needMore => .needMore
      | .malformed => .malformed
      | .outOfFuel => .outOfFuel
    | .needMore => .needMore
    | .malformed => .malformed
    | .outOfFuel => .outOfFuel

end

/-- Parse one RESP reply from the front of the stream, at the canonical fuel
(which is proved sufficient: the result is never `outOfFuel`). -/
def parseReply (input : List Nat) : ParseOne :=
  parseOneF (input.length + 1) input

/-- Modelled from the spec: the core loop of
`RedisResponse::ConsumePartialIOBuf` — attempt to complete up to
`count` additional top-level replies from the front of `buf`, consuming only
the bytes of fully parsed replies.  Returns the parse result code, the new
replies in arrival order, and the unconsumed remainder of `buf`. -/
def consumeReplies : List Nat → Nat → ParseError × List RedisMessage × List Nat
  | buf, 0 => (.PARSE_OK, [], buf)
  | buf, count + 1 =>
    match parseReply buf with
    | .ok m rest =>
      let r := consumeReplies rest count
      (r.1, m :: r.2.1, r.2.2)
    | .needMore => (.PARSE_ERROR_NOT_ENOUGH_DATA, [], buf)
    | .malformed => (.PARSE_ERROR_ABSOLUTELY_WRONG, [], buf)
    | .outOfFuel => (.PARSE_ERROR_ABSOLUTELY_WRONG, [], buf)

/-- ASCII decimal digits of a natural number, most significant first. -/
def natDigits (n : Nat) : List Nat :=
  if n < 10 then [48 + n]
  else natDigits (n / 10) ++ [48 + n % 10]
decreasing_by exact Nat.div_lt_self (by omega) (by omega)

/-- The CRLF line terminator. -/
def crlf : List Nat := [13, 10]

/-- Modelled from the spec: RESP encoding of one binary-safe bulk string,
`$<len>\r\n<bytes>\r\n` (wire framing of spec section 4.1). -/
def encodeBulk (data : List Nat) : List Nat :=
  36 :: (natDigits data.length ++ crlf ++ data ++ crlf)

/-- Concatenated bulk-string encodings of a command's components. -/
def encodeBulks : List (List Nat) → List Nat
  | [] => []
  | c :: cs => encodeBulk c ++ encodeBulks cs

/-- Modelled from the spec: RESP encoding of one command,
`*<n>\r\n` followed by `n` bulk strings (wire framing of spec section 4.1). -/
def encodeCommand (comps : List (List Nat)) : List Nat :=
  42 :: (natDigits comps.length ++ crlf ++ encodeBulks comps)

/-- State of a `RedisRequest` (`redis.h` lines 139-142): the count of valid
commands `_ncommand`, the sticky error flag `_has_error`, and the serialized
request bytes `_buf`. -/
structure RedisRequestState where
  ncommand : Nat := 0
  hasError : Bool := false
  buf : List Nat := []

/-- A freshly constructed (or `Clear()`-ed) `RedisRequest`. -/
def initialRequest : RedisRequestState := {}

/-- Modelled from the spec: `RedisRequest::AddCommandByComponents` (the body
in `redis.cpp` is absent) — appends one RESP array of exactly `n`
binary-safe elements taken verbatim; `n = 0` is an error: it returns
failure, sets the sticky flag and appends nothing. -/
def AddCommandByComponents (st : RedisRequestState) (comps : List (List Nat)) :
    Bool × RedisRequestState :=
  if comps.length = 0 then (false, { st with hasError := true })
  else
    (true, { st with
      ncommand := st.ncommand + 1
      buf := st.buf ++ encodeCommand comps })

/-- Modelled from the spec: the observable effect of one `AddCommand` /
`AddCommandV` / `AddCommandByComponents` call.  A format-extraction failure
is `formatted none`; a successful extraction yields the token list.  Per the
spec, a malformed specifier or a zero-length component list fails the call
atomically (sticky flag set, nothing appended), and a successful call
appends exactly one encoded command. -/
inductive AddOp where
  | byComponents (comps : List (List Nat))
  | formatted (toks : Option (List (List Nat)))

/-- Modelled from the spec: apply one `Add*` call to the request state. -/
def applyAdd (st : RedisRequestState) (op : AddOp) : Bool × RedisRequestState :=
  match op with
  | .byComponents comps => AddCommandByComponents st comps
  | .formatted none => (false, { st with hasError := true })
  | .formatted (some toks) => AddCommandByComponents st toks

/-- The request state reached from a fresh request by a sequence of `Add*`
calls. -/
def applyAdds (ops : List AddOp) : RedisRequestState :=
  ops.foldl (fun st op => (applyAdd st op).2) initialRequest

/-- Modelled from the spec: `RedisRequest::SerializeTo` (`redis.h` line 107,
body absent) — writes the already-encoded bytes to the sink and returns
true, but refuses (returns false, writes nothing) when the sticky error flag
is set. -/
def SerializeTo (st : RedisRequestState) (sink : List Nat) : Bool × List Nat :=
  if st.hasError then (false, sink) else (true, sink ++ st.buf)

/-- Number of complete top-level RESP command arrays at the front of a
buffer, by repeated parsing; `none` when the buffer is not exactly a
concatenation of complete command arrays.  `fuel` bounds the iteration. -/
def countCommandsF : Nat → List Nat → Option Nat
  | _, [] => some 0
  | 0, _ => none
  | f + 1, buf =>
    match parseReply buf with
    | .ok (.array (some _)) rest => (countCommandsF f rest).map (· + 1)
    | _ => none

/-- Number of complete top-level RESP command arrays a buffer consists of. -/
def countCommands (buf : List Nat) : Option Nat :=
  countCommandsF buf.length buf

/-- State of a `RedisResponse` (`redis.h` lines 206-210): the inline first
reply `_first_reply`, the arena-owned overflow replies `_other_replies`, the
reply count `_nreply`, and — modelled from the spec — the terminal-failure
flag making the decoder unusable after a malformed parse. -/
structure RedisResponseState where
  firstReply : RedisMessage := .nil
  otherReplies : List RedisMessage := []
  nreply : Nat := 0
  failed : Bool := false

/-- A freshly constructed `RedisResponse`. -/
def initialResponse : RedisResponseState := {}

/-- Shape invariant of a response: when no reply has been parsed the
overflow sequence is empty, otherwise it holds all replies after the first. -/
def WFResponse (st : RedisResponseState) : Prop :=
  st.otherReplies.length + min st.nreply 1 = st.nreply

/-- Modelled from the spec: record one newly completed reply — the first
reply is stored inline in `_first_reply`, every further reply is appended to
`_other_replies`. -/
def pushReply (st : RedisResponseState) (m : RedisMessage) : RedisResponseState :=
  if st.nreply = 0 then { st with firstReply := m, nreply := 1 }
  else { st with otherReplies := st.otherReplies ++ [m], nreply := st.nreply + 1 }

/-- Embedding of `RedisResponse::reply` (`redis.h` lines 164-170), verbatim:
`if (index < reply_size()) return (index == 0 ? _first_reply :
_other_replies[index - 1]); return redis_nil;`.  The index is a C `int`,
modelled as `Int`; an out-of-bounds read of `_other_replies` (which the code
performs for every negative index) is undefined behaviour, modelled as
`none`. -/
def replyImpl (st : RedisResponseState) (index : Int) : Option RedisMessage :=
  if index < (st.nreply : Int) then
    if index = 0 then some st.firstReply
    else if 0 ≤ index - 1 ∧ index - 1 < (st.otherReplies.length : Int) then
      some (st.otherReplies.getD (index - 1).toNat .nil)
    else none
  else some .nil

/-- Modelled from the spec: `RedisResponse::ConsumePartialIOBuf` (`redis.h`
line 176, body absent) — parse and consume intact replies from `buf`,
retaining the completed ones; a malformed stream makes the decoder terminal
(every later call fails without touching anything). -/
def ConsumePartialIOBuf (st : RedisResponseState) (buf : List Nat) (replyCount : Nat) :
    ParseError × RedisResponseState × List Nat :=
  if st.failed then (.PARSE_ERROR_ABSOLUTELY_WRONG, st, buf)
  else
    let r := consumeReplies buf replyCount
    let st1 := r.2.1.foldl pushReply st
    (r.1,
     if r.1 = .PARSE_ERROR_ABSOLUTELY_WRONG then { st1 with failed := true } else st1,
     r.2.2)

/-- The two outcomes of `RedisCommandHandler::Run` (`redis.h` lines
237-240): `OK` ends the handler's tenure, `CONTINUE` keeps capturing
subsequent commands. -/
inductive HResult where
  | OK
  | CONTINUE
deriving DecidableEq

/-- Where one arriving command was routed: to a handler instance (identified
by the owning connection's id and the per-connection creation index), or
rejected as an unknown command. -/
inductive Routed where
  | dispatchError
  | toHandler (conn : Nat) (idx : Nat)
deriving DecidableEq

/-- Modelled from the spec: the per-connection handler state of spec section
4.4 (implemented by the absent `redis_protocol.cpp`): the lazily created
handler instances keyed by command name, the next creation index, and the
nullable active-handler slot used for transaction capture. -/
structure ConnState where
  connId : Nat := 0
  instances : List (String × Nat) := []
  nextIdx : Nat := 0
  active : Option Nat := none

/-- Look up a command name in the per-connection instance map. -/
def lookupInst : List (String × Nat) → String → Option Nat
  | [], _ => none
  | (k, v) :: t, name => if k = name then some v else lookupInst t name

/-- Modelled from the spec: the effect of the handler's outcome on the
active slot — `OK` clears the slot if it held this handler; `CONTINUE` sets
the slot to this handler if not already set. -/
def applyOutcome (st : ConnState) (h : Nat) (res : HResult) : ConnState :=
  match res with
  | .OK => if st.active = some h then { st with active := none } else st
  | .CONTINUE =>
    match st.active with
    | none => { st with active := some h }
    | some _ => st

/-- Modelled from the spec: dispatch of one arriving command (spec section
4.4, implemented by the absent `redis_protocol.cpp`).  If the active slot is
non-empty the command is routed to the active handler irrespective of its
name; otherwise an unknown name is a dispatch error and a known name is
routed to this connection's instance for that name, created on first use.
The handler's outcome `res` is supplied by the invoked handler. -/
def processCommand (table : String → Bool) (st : ConnState) (name : String)
    (res : HResult) : Routed × ConnState :=
  match st.active with
  | some h => (.toHandler st.connId h, applyOutcome st h res)
  | none =>
    if table name then
      match lookupInst st.instances name with
      | some h => (.toHandler st.connId h, applyOutcome st h res)
      | none =>
        let h := st.nextIdx
        let st1 := { st with
          instances := st.instances ++ [(name, h)]
          nextIdx := h + 1 }
        (.toHandler st.connId h, applyOutcome st1 h res)
    else (.dispatchError, st)

/-- Process a sequence of commands (each with the outcome its handler
returns) strictly in arrival order. -/
def runCommands (table : String → Bool) :
    ConnState → List (String × HResult) → List Routed × ConnState
  | st, [] => ([], st)
  | st, (name, res) :: t =>
    let r := processCommand table st name res
    let rest := runCommands table r.2 t
    (r.1 :: rest.1, rest.2)

/-- Modelled from the spec: the null-terminated argument array handed to
`RedisCommandHandler::Run` (`redis.h` lines 246-248; the caller building it
lives in the absent `redis_protocol.cpp`): the command's tokens in order,
followed by a null pointer (`none`). -/
def buildArgs (tokens : List (List Nat)) : List (Option (List Nat)) :=
  tokens.map some ++ [none]

/-- Number of arguments recoverable from a null-terminated argument array:
the entries before the first null. -/
def argsCount : List (Option (List Nat)) → Nat
  | [] => 0
  | none :: _ => 0
  | some _ :: t => argsCount t + 1

/-- A dispatch table knowing the two command names used in the transaction
counterexample. -/
def tableMS : String → Bool := fun n => n == "multi" || n == "set"

/-! ### Lemmas about `readLine` -/

theorem readLine_append {l line r : List Nat} (e : List Nat)
    (h : readLine l = some (line, r)) :
    readLine (l ++ e) = some (line, r ++ e) := by
  induction l generalizing line r with
  | nil => simp [readLine] at h
  | cons b1 t ih =>
    cases t with
    | nil => simp [readLine] at h
    | cons b2 rest =>
      rw [readLine] at h
      rw [List.cons_append, List.cons_append, readLine]
      split at h
      · rename_i hc
        simp only [Option.some.injEq, Prod.mk.injEq] at h
        obtain ⟨rfl, rfl⟩ := h
        rw [if_pos hc]
      · rename_i hc
        rw [if_neg hc]
        cases hrl : readLine (b2 :: rest) with
        | none => rw [hrl] at h; simp at h
        | some p =>
          obtain ⟨l2, r2⟩ := p
          rw [hrl] at h
          simp only [Option.some.injEq, Prod.mk.injEq] at h
          obtain ⟨rfl, rfl⟩ := h
          have h2 := ih hrl
          rw [List.cons_append] at h2
          rw [h2]

theorem readLine_length {l line r : List Nat}
    (h : readLine l = some (line, r)) : r.length + 2 ≤ l.length := by
  induction l generalizing line r with
  | nil => simp [readLine] at h
  | cons b1 t ih =>
    cases t with
    | nil => simp [readLine] at h
    | cons b2 rest =>
      rw [readLine] at h
      split at h
      · simp only [Option.some.injEq, Prod.mk.injEq] at h
        obtain ⟨rfl, rfl⟩ := h
        simp
      · cases hrl : readLine (b2 :: rest) with
        | none => rw [hrl] at h; simp at h
        | some p =>
          obtain ⟨l2, r2⟩ := p
          rw [hrl] at h
          simp only [Option.some.injEq, Prod.mk.injEq] at h
          obtain ⟨rfl, rfl⟩ := h
          have := ih hrl
          simp only [List.length_cons] at *
          omega

theorem readLine_of_no_cr {line : List Nat} (r : List Nat) (h : ¬ 13 ∈ line) :
    readLine (line ++ 13 :: 10 :: r) = some (line, r) := by
  induction line with
  | nil => simp [readLine]
  | cons b t ih =>
    have hb : b ≠ 13 := fun hh => h (hh ▸ List.mem_cons_self b t)
    have ht : ¬ 13 ∈ t := fun hh => h (List.mem_cons_of_mem b hh)
    cases t with
    | nil =>
      simp only [List.nil_append, List.cons_append, readLine]
      rw [if_neg (by simp [hb]), if_pos (by simp)]
    | cons c t2 =>
      rw [List.cons_append, List.cons_append, readLine]
      rw [if_neg (by simp [hb])]
      have := ih ht
      rw [List.cons_append] at this
      rw [this]

/-! ### Lemmas about decimal digits -/

theorem digitsVal_append (l : List Nat) (d : Nat) :
    digitsVal (l ++ [d]) = digitsVal l * 10 + (d - 48) := by
  simp [digitsVal, List.foldl_append]

theorem natDigits_all (n : Nat) : (natDigits n).all isDigit = true := by
  induction n using Nat.strong_induction_on with
  | _ n ih =>
    rw [natDigits]
    split
    · rename_i h
      simp [isDigit]
      omega
    · rename_i h
      rw [List.all_append]
      simp only [Bool.and_eq_true]
      refine ⟨ih _ (Nat.div_lt_self (by omega) (by omega)), ?_⟩
      simp [isDigit]
      omega

theorem natDigits_val (n : Nat) : digitsVal (natDigits n) = n := by
  induction n using Nat.strong_induction_on with
  | _ n ih =>
    rw [natDigits]
    split
    · rename_i h
      simp [digitsVal]
    · rename_i h
      rw [digitsVal_append, ih _ (Nat.div_lt_self (by omega) (by omega))]
      omega

theorem natDigits_ne_nil (n : Nat) : natDigits n ≠ [] := by
  rw [natDigits]
  split <;> simp

theorem digitsToNat_natDigits (n : Nat) : digitsToNat (natDigits n) = some n := by
  rw [digitsToNat, if_neg (by simp [List.isEmpty_iff, natDigits_ne_nil n]),
    if_pos (natDigits_all n), natDigits_val]

theorem no_cr_of_all_digits {l : List Nat} (h : l.all isDigit = true) :
    ¬ 13 ∈ l := by
  intro hm
  have := List.all_eq_true.mp h 13 hm
  simp [isDigit] at this

theorem natDigits_no_cr (n : Nat) : ¬ 13 ∈ natDigits n :=
  no_cr_of_all_digits (natDigits_all n)

theorem parseIntBytes_natDigits (n : Nat) :
    parseIntBytes (natDigits n) = some (n : Int) := by
  cases hnd : natDigits n with
  | nil => exact absurd hnd (natDigits_ne_nil n)
  | cons b t =>
    have hall := natDigits_all n
    rw [hnd, List.all_cons, Bool.and_eq_true] at hall
    have hb45 : b ≠ 45 := by
      have := hall.1
      simp [isDigit] at this
      omega
    rw [parseIntBytes, if_neg hb45, ← hnd, digitsToNat_natDigits]
    rfl

/-! ### Lemmas about the non-recursive reply-prefix handlers -/

theorem parseLineAfter_bound {mk : List Nat → RedisMessage} {rest : List Nat}
    {m : RedisMessage} {r : List Nat} (h : parseLineAfter mk rest = .ok m r) :
    r.length + 2 ≤ rest.length := by
  unfold parseLineAfter at h
  split at h
  · exact ParseOne.noConfusion h
  · rename_i line r2 hrl
    simp only [ParseOne.ok.injEq] at h
    obtain ⟨-, rfl⟩ := h
    exact readLine_length hrl

theorem parseLineAfter_append {mk : List Nat → RedisMessage} {rest : List Nat}
    {m : RedisMessage} {r : List Nat} (e : List Nat)
    (h : parseLineAfter mk rest = .ok m r) :
    parseLineAfter mk (rest ++ e) = .ok m (r ++ e) := by
  unfold parseLineAfter at h ⊢
  split at h
  · exact ParseOne.noConfusion h
  · rename_i line r2 hrl
    simp only [ParseOne.ok.injEq] at h
    obtain ⟨rfl, rfl⟩ := h
    rw [readLine_append e hrl]

theorem parseLineAfter_ne_outOfFuel (mk : List Nat → RedisMessage)
    (rest : List Nat) : parseLineAfter mk rest ≠ .outOfFuel := by
  intro h
  unfold parseLineAfter at h
  split at h <;> exact ParseOne.noConfusion h

theorem parseIntegerAfter_bound {rest : List Nat} {m : RedisMessage}
    {r : List Nat} (h : parseIntegerAfter rest = .ok m r) :
    r.length + 2 ≤ rest.length := by
  unfold parseIntegerAfter at h
  split at h
  · exact ParseOne.noConfusion h
  · rename_i line r2 hrl
    split at h
    · exact ParseOne.noConfusion h
    · simp only [ParseOne.ok.injEq] at h
      obtain ⟨-, rfl⟩ := h
      exact readLine_length hrl

theorem parseIntegerAfter_append {rest : List Nat} {m : RedisMessage}
    {r : List Nat} (e : List Nat) (h : parseIntegerAfter rest = .ok m r) :
    parseIntegerAfter (rest ++ e) = .ok m (r ++ e) := by
  unfold parseIntegerAfter at h ⊢
  split at h
  · exact ParseOne.noConfusion h
  · rename_i line r2 hrl
    split at h
    · exact ParseOne.noConfusion h
    · rename_i i hint
      simp only [ParseOne.ok.injEq] at h
      obtain ⟨rfl, rfl⟩ := h
      simp only [parseIntegerAfter, readLine_append e hrl, hint]

theorem parseIntegerAfter_ne_outOfFuel (rest : List Nat) :
    parseIntegerAfter rest ≠ .outOfFuel := by
  intro h
  unfold parseIntegerAfter at h
  split at h
  · exact ParseOne.noConfusion h
  · split at h
    · exact ParseOne.noConfusion h
    · exact ParseOne.noConfusion h

theorem parseBulkAfter_bound {rest : List Nat} {m : RedisMessage}
    {r : List Nat} (h : parseBulkAfter rest = .ok m r) :
    r.length + 2 ≤ rest.length := by
  unfold parseBulkAfter at h
  split at h
  · exact ParseOne.noConfusion h
  · rename_i line r2 hrl
    have hlen := readLine_length hrl
    split at h
    · exact ParseOne.noConfusion h
    · rename_i len hint
      split at h
      · simp only [ParseOne.ok.injEq] at h
        obtain ⟨-, rfl⟩ := h
        omega
      · split at h
        · exact ParseOne.noConfusion h
        · split at h
          · exact ParseOne.noConfusion h
          · split at h
            · rename_i r3 hdrop
              simp only [ParseOne.ok.injEq] at h
              obtain ⟨-, rfl⟩ := h
              have hd := congrArg List.length hdrop
              simp only [List.length_drop, List.length_cons] at hd
              omega
            · exact ParseOne.noConfusion h

theorem parseBulkAfter_append {rest : List Nat} {m : RedisMessage}
    {r : List Nat} (e : List Nat) (h : parseBulkAfter rest = .ok m r) :
    parseBulkAfter (rest ++ e) = .ok m (r ++ e) := by
  unfold parseBulkAfter at h
  split at h
  · exact ParseOne.noConfusion h
  · rename_i line r2 hrl
    split at h
    · exact ParseOne.noConfusion h
    · rename_i len hint
      simp only [parseBulkAfter, readLine_append e hrl, hint]
      split at h
      · rename_i hm1
        simp only [ParseOne.ok.injEq] at h
        obtain ⟨rfl, rfl⟩ := h
        rw [if_pos hm1]
      · rename_i hm1
        rw [if_neg hm1]
        split at h
        · exact ParseOne.noConfusion h
        · rename_i hm2
          rw [if_neg hm2]
          split at h
          · exact ParseOne.noConfusion h
          · rename_i hshort
            have hle : len.toNat + 2 ≤ r2.length := by omega
            rw [if_neg (by
              rw [List.length_append]
              omega)]
            split at h
            · rename_i r3 hdrop
              simp only [ParseOne.ok.injEq] at h
              obtain ⟨rfl, rfl⟩ := h
              have hdrop2 : (r2 ++ e).drop len.toNat = 13 :: 10 :: (r3 ++ e) := by
                rw [List.drop_append_eq_append_drop,
                  Nat.sub_eq_zero_of_le (by omega), List.drop_zero, hdrop]
                rfl
              have htake : (r2 ++ e).take len.toNat = r2.take len.toNat := by
                rw [List.take_append_eq_append_take,
                  Nat.sub_eq_zero_of_le (by omega), List.take_zero,
                  List.append_nil]
              simp only [hdrop2, htake]
            · exact ParseOne.noConfusion h

theorem parseBulkAfter_ne_outOfFuel (rest : List Nat) :
    parseBulkAfter rest ≠ .outOfFuel := by
  intro h
  unfold parseBulkAfter at h
  split at h
  · exact ParseOne.noConfusion h
  · split at h
    · exact ParseOne.noConfusion h
    · split at h
      · exact ParseOne.noConfusion h
      · split at h
        · exact ParseOne.noConfusion h
        · split at h
          · exact ParseOne.noConfusion h
          · split at h
            · exact ParseOne.noConfusion h
            · exact ParseOne.noConfusion h

/-! ### Bound, fuel-sufficiency, fuel-monotonicity and append lemmas for the
mutual parser -/

theorem parse_bound (f : Nat) :
    (∀ input m rest, parseOneF f input = .ok m rest →
      rest.length + 3 ≤ input.length) ∧
    (∀ cnt input ms rest, parseElemsF f cnt input = .ok ms rest →
      rest.length ≤ input.length) := by
  induction f with
  | zero =>
    constructor
    · intro input m rest h
      simp [parseOneF] at h
    · intro cnt input ms rest h
      cases cnt with
      | zero =>
        simp only [parseElemsF, ParseMany.ok.injEq] at h
        obtain ⟨-, rfl⟩ := h
        exact Nat.le_refl _
      | succ k => simp [parseElemsF] at h
  | succ f ih =>
    constructor
    · intro input m rest h
      cases input with
      | nil => simp [parseOneF] at h
      | cons c rest1 =>
        simp only [parseOneF] at h
        split at h
        · have := parseLineAfter_bound h
          simp only [List.length_cons]
          omega
        · split at h
          · have := parseLineAfter_bound h
            simp only [List.length_cons]
            omega
          · split at h
            · have := parseIntegerAfter_bound h
              simp only [List.length_cons]
              omega
            · split at h
              · have := parseBulkAfter_bound h
                simp only [List.length_cons]
                omega
              · split at h
                · -- array case
                  split at h
                  · exact ParseOne.noConfusion h
                  · rename_i line r hrl
                    have hlen := readLine_length hrl
                    split at h
                    · exact ParseOne.noConfusion h
                    · rename_i cnt hint
                      split at h
                      · simp only [ParseOne.ok.injEq] at h
                        obtain ⟨-, rfl⟩ := h
                        simp only [List.length_cons]
                        omega
                      · split at h
                        · exact ParseOne.noConfusion h
                        · split at h
                          · rename_i ms2 rest2 helems
                            simp only [ParseOne.ok.injEq] at h
                            obtain ⟨-, rfl⟩ := h
                            have := ih.2 _ _ _ _ helems
                            simp only [List.length_cons]
                            omega
                          · exact ParseOne.noConfusion h
                          · exact ParseOne.noConfusion h
                          · exact ParseOne.noConfusion h
                · exact ParseOne.noConfusion h
    · intro cnt input ms rest h
      cases cnt with
      | zero =>
        simp only [parseElemsF, ParseMany.ok.injEq] at h
        obtain ⟨-, rfl⟩ := h
        exact Nat.le_refl _
      | succ k =>
        simp only [parseElemsF] at h
        split at h
        · rename_i m1 rest1 hone
          have h1 := ih.1 _ _ _ hone
          split at h
          · rename_i ms2 rest2 helems
            simp only [ParseMany.ok.injEq] at h
            obtain ⟨-, rfl⟩ := h
            have h2 := ih.2 _ _ _ _ helems
            omega
          · exact ParseMany.noConfusion h
          · exact ParseMany.noConfusion h
          · exact ParseMany.noConfusion h
        · exact ParseMany.noConfusion h
        · exact ParseMany.noConfusion h
        · exact ParseMany.noConfusion h

theorem parse_nofuel (f : Nat) :
    (∀ input, input.length < f → parseOneF f input = .outOfFuel → False) ∧
    (∀ cnt input, input.length + 1 < f →
      parseElemsF f cnt input = .outOfFuel → False) := by
  induction f with
  | zero =>
    constructor
    · intro input hlt h
      exact absurd hlt (Nat.not_lt_zero _)
    · intro cnt input hlt h
      exact absurd hlt (Nat.not_lt_zero _)
  | succ f ih =>
    constructor
    · intro input hlt h
      cases input with
      | nil => simp [parseOneF] at h
      | cons c rest1 =>
        simp only [parseOneF] at h
        split at h
        · exact parseLineAfter_ne_outOfFuel _ _ h
        · split at h
          · exact parseLineAfter_ne_outOfFuel _ _ h
          · split at h
            · exact parseIntegerAfter_ne_outOfFuel _ h
            · split at h
              · exact parseBulkAfter_ne_outOfFuel _ h
              · split at h
                · split at h
                  · exact ParseOne.noConfusion h
                  · rename_i line r hrl
                    have hlen := readLine_length hrl
                    split at h
                    · exact ParseOne.noConfusion h
                    · rename_i cnt hint
                      split at h
                      · exact ParseOne.noConfusion h
                      · split at h
                        · exact ParseOne.noConfusion h
                        · split at h
                          · exact ParseOne.noConfusion h
                          · exact ParseOne.noConfusion h
                          · exact ParseOne.noConfusion h
                          · rename_i hpe
                            refine ih.2 cnt.toNat r ?_ hpe
                            simp only [List.length_cons] at hlt
                            omega
                · exact ParseOne.noConfusion h
    · intro cnt input hlt h
      cases cnt with
      | zero => simp [parseElemsF] at h
      | succ k =>
        simp only [parseElemsF] at h
        split at h
        · rename_i m1 rest1 hone
          have hb := (parse_bound f).1 _ _ _ hone
          split at h
          · exact ParseMany.noConfusion h
          · exact ParseMany.noConfusion h
          · exact ParseMany.noConfusion h
          · rename_i hpe
            refine ih.2 k rest1 ?_ hpe
            omega
        · exact ParseMany.noConfusion h
        · exact ParseMany.noConfusion h
        · rename_i hone
          exact ih.1 input (by omega) hone

theorem parse_mono (f : Nat) :
    (∀ g input res, f ≤ g → res ≠ .outOfFuel → parseOneF f input = res →
      parseOneF g input = res) ∧
    (∀ g cnt input res, f ≤ g → res ≠ .outOfFuel →
      parseElemsF f cnt input = res → parseElemsF g cnt input = res) := by
  induction f with
  | zero =>
    constructor
    · intro g input res hg hres h
      exact absurd h.symm hres
    · intro g cnt input res hg hres h
      cases cnt with
      | zero =>
        rw [← h]
        cases g <;> simp [parseElemsF]
      | succ k => exact absurd h.symm hres
  | succ f ih =>
    constructor
    · intro g input res hg hres h
      cases g with
      | zero => exact absurd hg (by omega)
      | succ g =>
        have hfg : f ≤ g := by omega
        cases input with
        | nil =>
          simp only [parseOneF] at h ⊢
          exact h
        | cons c rest1 =>
          simp only [parseOneF] at h ⊢
          split at h
          · rename_i hc
            rw [if_pos hc]
            exact h
          · rename_i hc
            rw [if_neg hc]
            split at h
            · rename_i hc2
              rw [if_pos hc2]
              exact h
            · rename_i hc2
              rw [if_neg hc2]
              split at h
              · rename_i hc3
                rw [if_pos hc3]
                exact h
              · rename_i hc3
                rw [if_neg hc3]
                split at h
                · rename_i hc4
                  rw [if_pos hc4]
                  exact h
                · rename_i hc4
                  rw [if_neg hc4]
                  split at h
                  · rename_i hc5
                    rw [if_pos hc5]
                    split at h
                    · rename_i hrl
                      exact h
                    · rename_i line r hrl
                      split at h
                      · rename_i hint
                        exact h
                      · rename_i cnt hint
                        split at h
                        · rename_i hm1
                          rw [if_pos hm1]
                          exact h
                        · rename_i hm1
                          rw [if_neg hm1]
                          split at h
                          · rename_i hm2
                            rw [if_pos hm2]
                            exact h
                          · rename_i hm2
                            rw [if_neg hm2]
                            split at h
                            · rename_i ms2 rest2 hpe
                              rw [ih.2 g cnt.toNat r _ hfg
                                (fun hh => ParseMany.noConfusion hh) hpe]
                              exact h
                            · rename_i hpe
                              rw [ih.2 g cnt.toNat r _ hfg
                                (fun hh => ParseMany.noConfusion hh) hpe]
                              exact h
                            · rename_i hpe
                              rw [ih.2 g cnt.toNat r _ hfg
                                (fun hh => ParseMany.noConfusion hh) hpe]
                              exact h
                            · rename_i hpe
                              exact absurd h.symm hres
                  · rename_i hc5
                    rw [if_neg hc5]
                    exact h
    · intro g cnt input res hg hres h
      cases g with
      | zero => exact absurd hg (by omega)
      | succ g =>
        have hfg : f ≤ g := by omega
        cases cnt with
        | zero =>
          simp only [parseElemsF] at h ⊢
          exact h
        | succ k =>
          simp only [parseElemsF] at h ⊢
          split at h
          · rename_i m1 rest1 hone
            simp only [ih.1 g input _ hfg (fun hh => ParseOne.noConfusion hh) hone]
            split at h
            · rename_i ms2 rest2 hpe
              rw [ih.2 g k rest1 _ hfg (fun hh => ParseMany.noConfusion hh) hpe]
              exact h
            · rename_i hpe
              rw [ih.2 g k rest1 _ hfg (fun hh => ParseMany.noConfusion hh) hpe]
              exact h
            · rename_i hpe
              rw [ih.2 g k rest1 _ hfg (fun hh => ParseMany.noConfusion hh) hpe]
              exact h
            · exact absurd h.symm hres
          · rename_i hone
            simp only [ih.1 g input _ hfg (fun hh => ParseOne.noConfusion hh) hone]
            exact h
          · rename_i hone
            simp only [ih.1 g input _ hfg (fun hh => ParseOne.noConfusion hh) hone]
            exact h
          · exact absurd h.symm hres

theorem parse_append (f : Nat) :
    (∀ input m rest e, parseOneF f input = .ok m rest →
      parseOneF f (input ++ e) = .ok m (rest ++ e)) ∧
    (∀ cnt input ms rest e, parseElemsF f cnt input = .ok ms rest →
      parseElemsF f cnt (input ++ e) = .ok ms (rest ++ e)) := by
  induction f with
  | zero =>
    constructor
    · intro input m rest e h
      simp [parseOneF] at h
    · intro cnt input ms rest e h
      cases cnt with
      | zero =>
        simp only [parseElemsF, ParseMany.ok.injEq] at h ⊢
        obtain ⟨rfl, rfl⟩ := h
        exact ⟨rfl, rfl⟩
      | succ k => simp [parseElemsF] at h
  | succ f ih =>
    constructor
    · intro input m rest e h
      cases input with
      | nil => simp [parseOneF] at h
      | cons c rest1 =>
        rw [List.cons_append]
        simp only [parseOneF] at h ⊢
        split at h
        · rename_i hc
          rw [if_pos hc]
          exact parseLineAfter_append e h
        · rename_i hc
          rw [if_neg hc]
          split at h
          · rename_i hc2
            rw [if_pos hc2]
            exact parseLineAfter_append e h
          · rename_i hc2
            rw [if_neg hc2]
            split at h
            · rename_i hc3
              rw [if_pos hc3]
              exact parseIntegerAfter_append e h
            · rename_i hc3
              rw [if_neg hc3]
              split at h
              · rename_i hc4
                rw [if_pos hc4]
                exact parseBulkAfter_append e h
              · rename_i hc4
                rw [if_neg hc4]
                split at h
                · rename_i hc5
                  rw [if_pos hc5]
                  split at h
                  · exact ParseOne.noConfusion h
                  · rename_i line r hrl
                    simp only [readLine_append e hrl]
                    split at h
                    · exact ParseOne.noConfusion h
                    · rename_i cnt hint
                      split at h
                      · rename_i hm1
                        rw [if_pos hm1]
                        simp only [ParseOne.ok.injEq] at h
                        obtain ⟨rfl, rfl⟩ := h
                        rfl
                      · rename_i hm1
                        rw [if_neg hm1]
                        split at h
                        · exact ParseOne.noConfusion h
                        · rename_i hm2
                          rw [if_neg hm2]
                          split at h
                          · rename_i ms2 rest2 hpe
                            rw [ih.2 _ _ _ _ e hpe]
                            simp only [ParseOne.ok.injEq] at h
                            obtain ⟨rfl, rfl⟩ := h
                            rfl
                          · exact ParseOne.noConfusion h
                          · exact ParseOne.noConfusion h
                          · exact ParseOne.noConfusion h
                · rename_i hc5
                  exact ParseOne.noConfusion h
    · intro cnt input ms rest e h
      cases cnt with
      | zero =>
        simp only [parseElemsF, ParseMany.ok.injEq] at h ⊢
        obtain ⟨rfl, rfl⟩ := h
        exact ⟨rfl, rfl⟩
      | succ k =>
        simp only [parseElemsF] at h ⊢
        split at h
        · rename_i m1 rest1 hone
          simp only [ih.1 _ _ _ e hone]
          split at h
          · rename_i ms2 rest2 hpe
            rw [ih.2 _ _ _ _ e hpe]
            simp only [ParseMany.ok.injEq] at h
            obtain ⟨rfl, rfl⟩ := h
            rfl
          · exact ParseMany.noConfusion h
          · exact ParseMany.noConfusion h
          · exact ParseMany.noConfusion h
        · exact ParseMany.noConfusion h
        · exact ParseMany.noConfusion h
        · exact ParseMany.noConfusion h

/-! ### The canonical parse of one reply -/

theorem parseReply_ne_outOfFuel (input : List Nat) :
    parseReply input ≠ .outOfFuel :=
  fun h => (parse_nofuel (input.length + 1)).1 input (Nat.lt_succ_self _) h

theorem parseReply_bound {input : List Nat} {m : RedisMessage} {rest : List Nat}
    (h : parseReply input = .ok m rest) : rest.length + 3 ≤ input.length :=
  (parse_bound _).1 _ _ _ h

theorem parseReply_append {input : List Nat} {m : RedisMessage}
    {rest : List Nat} (e : List Nat) (h : parseReply input = .ok m rest) :
    parseReply (input ++ e) = .ok m (rest ++ e) := by
  have h1 := (parse_append (input.length + 1)).1 _ _ _ e h
  exact (parse_mono (input.length + 1)).1 ((input ++ e).length + 1) (input ++ e)
    _ (by rw [List.length_append]; omega)
    (fun hh => ParseOne.noConfusion hh) h1

theorem readLine_structure {l line r : List Nat}
    (h : readLine l = some (line, r)) : l = line ++ 13 :: 10 :: r := by
  induction l generalizing line r with
  | nil => simp [readLine] at h
  | cons b1 t ih =>
    cases t with
    | nil => simp [readLine] at h
    | cons b2 rest =>
      rw [readLine] at h
      split at h
      · rename_i hc
        obtain ⟨h13, h10⟩ := hc
        simp only [Option.some.injEq, Prod.mk.injEq] at h
        obtain ⟨rfl, rfl⟩ := h
        rw [h13, h10]
        rfl
      · cases hrl : readLine (b2 :: rest) with
        | none => rw [hrl] at h; simp at h
        | some p =>
          obtain ⟨l2, r2⟩ := p
          rw [hrl] at h
          simp only [Option.some.injEq, Prod.mk.injEq] at h
          obtain ⟨rfl, rfl⟩ := h
          rw [List.cons_append]
          exact congrArg (List.cons b1) (ih hrl)

theorem parse_suffix (f : Nat) :
    (∀ input m rest, parseOneF f input = .ok m rest →
      ∃ p, input = p ++ rest) ∧
    (∀ cnt input ms rest, parseElemsF f cnt input = .ok ms rest →
      ∃ p, input = p ++ rest) := by
  induction f with
  | zero =>
    constructor
    · intro input m rest h
      simp [parseOneF] at h
    · intro cnt input ms rest h
      cases cnt with
      | zero =>
        simp only [parseElemsF, ParseMany.ok.injEq] at h
        obtain ⟨-, rfl⟩ := h
        exact ⟨[], rfl⟩
      | succ k => simp [parseElemsF] at h
  | succ f ih =>
    constructor
    · intro input m rest h
      cases input with
      | nil => simp [parseOneF] at h
      | cons c rest1 =>
        simp only [parseOneF] at h
        have hline : ∀ mk, parseLineAfter mk rest1 = .ok m rest →
            ∃ p, c :: rest1 = p ++ rest := by
          intro mk hl
          unfold parseLineAfter at hl
          split at hl
          · exact ParseOne.noConfusion hl
          · rename_i line r hrl
            simp only [ParseOne.ok.injEq] at hl
            obtain ⟨-, rfl⟩ := hl
            exact ⟨c :: line ++ [13, 10], by
              rw [readLine_structure hrl]
              simp⟩
        split at h
        · exact hline _ h
        · split at h
          · exact hline _ h
          · split at h
            · unfold parseIntegerAfter at h
              split at h
              · exact ParseOne.noConfusion h
              · rename_i line r hrl
                split at h
                · exact ParseOne.noConfusion h
                · simp only [ParseOne.ok.injEq] at h
                  obtain ⟨-, rfl⟩ := h
                  exact ⟨c :: line ++ [13, 10], by
                    rw [readLine_structure hrl]
                    simp⟩
            · split at h
              · unfold parseBulkAfter at h
                split at h
                · exact ParseOne.noConfusion h
                · rename_i line r hrl
                  split at h
                  · exact ParseOne.noConfusion h
                  · rename_i len hint
                    split at h
                    · simp only [ParseOne.ok.injEq] at h
                      obtain ⟨-, rfl⟩ := h
                      exact ⟨c :: line ++ [13, 10], by
                        rw [readLine_structure hrl]
                        simp⟩
                    · split at h
                      · exact ParseOne.noConfusion h
                      · split at h
                        · exact ParseOne.noConfusion h
                        · split at h
                          · rename_i r3 hdrop
                            simp only [ParseOne.ok.injEq] at h
                            obtain ⟨-, rfl⟩ := h
                            refine ⟨c :: line ++ [13, 10] ++
                              r.take len.toNat ++ [13, 10], ?_⟩
                            rw [readLine_structure hrl]
                            have hr : r = r.take len.toNat ++ 13 :: 10 :: r3 := by
                              conv_lhs => rw [← List.take_append_drop len.toNat r]
                              rw [hdrop]
                            conv_lhs => rw [hr]
                            simp
                          · exact ParseOne.noConfusion h
              · split at h
                · split at h
                  · exact ParseOne.noConfusion h
                  · rename_i line r hrl
                    split at h
                    · exact ParseOne.noConfusion h
                    · rename_i cnt hint
                      split at h
                      · simp only [ParseOne.ok.injEq] at h
                        obtain ⟨-, rfl⟩ := h
                        exact ⟨c :: line ++ [13, 10], by
                          rw [readLine_structure hrl]
                          simp⟩
                      · split at h
                        · exact ParseOne.noConfusion h
                        · split at h
                          · rename_i ms2 rest2 hpe
                            simp only [ParseOne.ok.injEq] at h
                            obtain ⟨-, rfl⟩ := h
                            obtain ⟨p2, hp2⟩ := ih.2 _ _ _ _ hpe
                            refine ⟨c :: line ++ [13, 10] ++ p2, ?_⟩
                            rw [readLine_structure hrl, hp2]
                            simp
                          · exact ParseOne.noConfusion h
                          · exact ParseOne.noConfusion h
                          · exact ParseOne.noConfusion h
                · exact ParseOne.noConfusion h
    · intro cnt input ms rest h
      cases cnt with
      | zero =>
        simp only [parseElemsF, ParseMany.ok.injEq] at h
        obtain ⟨-, rfl⟩ := h
        exact ⟨[], rfl⟩
      | succ k =>
        simp only [parseElemsF] at h
        split at h
        · rename_i m1 rest1 hone
          split at h
          · rename_i ms2 rest2 hpe
            simp only [ParseMany.ok.injEq] at h
            obtain ⟨-, rfl⟩ := h
            obtain ⟨p1, hp1⟩ := ih.1 _ _ _ hone
            obtain ⟨p2, hp2⟩ := ih.2 _ _ _ _ hpe
            exact ⟨p1 ++ p2, by rw [hp1, hp2, List.append_assoc]⟩
          · exact ParseMany.noConfusion h
          · exact ParseMany.noConfusion h
          · exact ParseMany.noConfusion h
        · exact ParseMany.noConfusion h
        · exact ParseMany.noConfusion h
        · exact ParseMany.noConfusion h

theorem parseReply_suffix {input : List Nat} {m : RedisMessage}
    {rest : List Nat} (h : parseReply input = .ok m rest) :
    ∃ p, input = p ++ rest :=
  (parse_suffix _).1 _ _ _ h

/-! ### Lemmas about the consume loop -/

theorem consumeReplies_suffix (count : Nat) (buf : List Nat) :
    ∃ pre, buf = pre ++ (consumeReplies buf count).2.2 := by
  induction count generalizing buf with
  | zero => exact ⟨[], rfl⟩
  | succ k ih =>
    simp only [consumeReplies]
    cases hp : parseReply buf with
    | ok m rest =>
      simp only [hp]
      obtain ⟨p1, hp1⟩ := parseReply_suffix hp
      obtain ⟨p2, hp2⟩ := ih rest
      exact ⟨p1 ++ p2, by rw [List.append_assoc, ← hp2, ← hp1]⟩
    | needMore => exact ⟨[], rfl⟩
    | malformed => exact ⟨[], rfl⟩
    | outOfFuel => exact ⟨[], rfl⟩

theorem consumeReplies_ok_iff (count : Nat) (buf : List Nat) :
    (consumeReplies buf count).1 = .PARSE_OK ↔
      (consumeReplies buf count).2.1.length = count := by
  induction count generalizing buf with
  | zero => simp [consumeReplies]
  | succ k ih =>
    simp only [consumeReplies]
    cases hp : parseReply buf with
    | ok m rest =>
      simp only [hp, List.length_cons]
      rw [ih rest]
      omega
    | needMore => simp
    | malformed => simp
    | outOfFuel => simp

theorem consumeReplies_need (count : Nat) (buf : List Nat)
    (h : (consumeReplies buf count).1 = .PARSE_ERROR_NOT_ENOUGH_DATA) :
    (consumeReplies buf count).2.1.length < count ∧
      parseReply (consumeReplies buf count).2.2 = .needMore := by
  induction count generalizing buf with
  | zero => simp [consumeReplies] at h
  | succ k ih =>
    simp only [consumeReplies] at h ⊢
    cases hp : parseReply buf with
    | ok m rest =>
      simp only [hp] at h ⊢
      obtain ⟨h1, h2⟩ := ih rest h
      refine ⟨?_, h2⟩
      simp only [List.length_cons]
      omega
    | needMore =>
      simp only [hp]
      exact ⟨Nat.succ_pos k, trivial⟩
    | malformed =>
      simp only [hp] at h
      exact ParseError.noConfusion h
    | outOfFuel =>
      simp only [hp] at h
      exact ParseError.noConfusion h

theorem consumeReplies_wrong (count : Nat) (buf : List Nat)
    (h : (consumeReplies buf count).1 = .PARSE_ERROR_ABSOLUTELY_WRONG) :
    parseReply (consumeReplies buf count).2.2 = .malformed ∧
      (consumeReplies buf count).2.1.length < count := by
  induction count generalizing buf with
  | zero => simp [consumeReplies] at h
  | succ k ih =>
    simp only [consumeReplies] at h ⊢
    cases hp : parseReply buf with
    | ok m rest =>
      simp only [hp] at h ⊢
      obtain ⟨h1, h2⟩ := ih rest h
      refine ⟨h1, ?_⟩
      simp only [List.length_cons]
      omega
    | needMore =>
      simp only [hp] at h
      exact ParseError.noConfusion h
    | malformed =>
      simp only [hp]
      exact ⟨trivial, Nat.succ_pos k⟩
    | outOfFuel =>
      exact absurd hp (parseReply_ne_outOfFuel buf)

theorem consumeReplies_resume (count : Nat) (buf : List Nat)
    (h : (consumeReplies buf count).1 = .PARSE_ERROR_NOT_ENOUGH_DATA)
    (e : List Nat) :
    consumeReplies (buf ++ e) count =
      ((consumeReplies ((consumeReplies buf count).2.2 ++ e)
          (count - (consumeReplies buf count).2.1.length)).1,
       (consumeReplies buf count).2.1 ++
         (consumeReplies ((consumeReplies buf count).2.2 ++ e)
           (count - (consumeReplies buf count).2.1.length)).2.1,
       (consumeReplies ((consumeReplies buf count).2.2 ++ e)
         (count - (consumeReplies buf count).2.1.length)).2.2) := by
  induction count generalizing buf with
  | zero => simp [consumeReplies] at h
  | succ k ih =>
    cases hp : parseReply buf with
    | ok m rest =>
      have hap := parseReply_append e hp
      simp only [consumeReplies, hp, hap] at h ⊢
      rw [ih rest h]
      simp [Nat.succ_sub_succ]
    | needMore =>
      simp only [consumeReplies, hp]
      simp
    | malformed =>
      simp only [consumeReplies, hp] at h
      exact ParseError.noConfusion h
    | outOfFuel =>
      exact absurd hp (parseReply_ne_outOfFuel buf)

/-! ### Encoder / decoder roundtrip -/

theorem parseOneF_encodeBulk (f : Nat) (data rest : List Nat) :
    parseOneF (f + 1) (encodeBulk data ++ rest) =
      .ok (.bulkString (some data)) rest := by
  have hshape : encodeBulk data ++ rest =
      36 :: (natDigits data.length ++ 13 :: 10 :: (data ++ 13 :: 10 :: rest)) := by
    simp [encodeBulk, crlf]
  rw [hshape]
  have hunf : parseOneF (f + 1)
      (36 :: (natDigits data.length ++ 13 :: 10 :: (data ++ 13 :: 10 :: rest))) =
      parseBulkAfter (natDigits data.length ++ 13 :: 10 :: (data ++ 13 :: 10 :: rest)) :=
    rfl
  rw [hunf]
  unfold parseBulkAfter
  simp only [readLine_of_no_cr (data ++ 13 :: 10 :: rest)
    (natDigits_no_cr data.length)]
  simp only [parseIntBytes_natDigits]
  rw [if_neg (show ¬((data.length : Int) = -1) by omega)]
  rw [if_neg (show ¬((data.length : Int) < -1) by omega)]
  rw [show ((data.length : Int)).toNat = data.length from Int.toNat_natCast _]
  rw [if_neg (show ¬((data ++ 13 :: 10 :: rest).length < data.length + 2) by
    simp only [List.length_append, List.length_cons]
    omega)]
  have hdl : (data ++ 13 :: 10 :: rest).drop data.length = 13 :: 10 :: rest :=
    List.drop_left data _
  have htl : (data ++ 13 :: 10 :: rest).take data.length = data :=
    List.take_left data _
  simp only [hdl, htl]

theorem encodeBulk_length_pos (data : List Nat) : 0 < (encodeBulk data).length := by
  simp [encodeBulk]

theorem encodeBulks_length_ge (comps : List (List Nat)) :
    comps.length ≤ (encodeBulks comps).length := by
  induction comps with
  | nil => simp [encodeBulks]
  | cons c cs ih =>
    simp only [encodeBulks, List.length_cons, List.length_append]
    have := encodeBulk_length_pos c
    omega

theorem parseElemsF_encodeBulks :
    ∀ (comps : List (List Nat)) (f : Nat) (rest : List Nat),
    comps.length < f →
    parseElemsF f comps.length (encodeBulks comps ++ rest) =
      .ok (comps.map fun c => .bulkString (some c)) rest := by
  intro comps
  induction comps with
  | nil =>
    intro f rest hf
    simp [encodeBulks, parseElemsF]
  | cons c cs ih =>
    intro f rest hf
    cases f with
    | zero => exact absurd hf (by omega)
    | succ f2 =>
      have hf2 : 1 ≤ f2 := by
        simp only [List.length_cons] at hf
        omega
      obtain ⟨f3, rfl⟩ : ∃ f3, f2 = f3 + 1 := ⟨f2 - 1, by omega⟩
      have h1 : parseOneF (f3 + 1)
          (encodeBulk c ++ (encodeBulks cs ++ rest)) =
          .ok (.bulkString (some c)) (encodeBulks cs ++ rest) :=
        parseOneF_encodeBulk f3 c (encodeBulks cs ++ rest)
      have hsh : encodeBulks (c :: cs) ++ rest =
          encodeBulk c ++ (encodeBulks cs ++ rest) := by
        simp [encodeBulks]
      rw [hsh]
      simp only [List.length_cons, parseElemsF]
      simp only [h1]
      rw [ih (f3 + 1) rest (by
        simp only [List.length_cons] at hf
        omega)]
      simp

theorem parseReply_encodeCommand (comps : List (List Nat)) (rest : List Nat) :
    parseReply (encodeCommand comps ++ rest) =
      .ok (.array (some (comps.map fun c => .bulkString (some c)))) rest := by
  have hshape : encodeCommand comps ++ rest =
      42 :: (natDigits comps.length ++ 13 :: 10 :: (encodeBulks comps ++ rest)) := by
    simp [encodeCommand, crlf]
  rw [parseReply, hshape]
  have hunf : ∀ (f : Nat) (X : List Nat), parseOneF (f + 1) (42 :: X) =
      (match readLine X with
       | none => ParseOne.needMore
       | some (line, r) =>
         match parseIntBytes line with
         | none => ParseOne.malformed
         | some cnt =>
           if cnt = -1 then ParseOne.ok (.array none) r
           else if cnt < -1 then ParseOne.malformed
           else
             match parseElemsF f cnt.toNat r with
             | .ok ms rest2 => ParseOne.ok (.array (some ms)) rest2
             | .needMore => ParseOne.needMore
             | .malformed => ParseOne.malformed
             | .outOfFuel => ParseOne.outOfFuel) :=
    fun _ _ => rfl
  rw [List.length_cons, hunf]
  simp only [readLine_of_no_cr (encodeBulks comps ++ rest)
    (natDigits_no_cr comps.length)]
  simp only [parseIntBytes_natDigits]
  rw [if_neg (show ¬((comps.length : Int) = -1) by omega)]
  rw [if_neg (show ¬((comps.length : Int) < -1) by omega)]
  have hlt : comps.length <
      (natDigits comps.length ++ 13 :: 10 :: (encodeBulks comps ++ rest)).length + 1 := by
    simp only [List.length_append, List.length_cons]
    have := encodeBulks_length_ge comps
    omega
  rw [show ((comps.length : Int)).toNat = comps.length from Int.toNat_natCast _]
  simp only [parseElemsF_encodeBulks comps _ rest hlt]

theorem countCommands_nil : countCommands [] = some 0 := rfl

theorem countCommandsF_mono :
    ∀ (n : Nat) (buf : List Nat), buf.length ≤ n →
    ∀ f g, buf.length ≤ f → buf.length ≤ g →
    countCommandsF f buf = countCommandsF g buf := by
  intro n
  induction n with
  | zero =>
    intro buf hb f g hf hg
    have hnil : buf = [] := List.length_eq_zero.mp (by omega)
    subst hnil
    cases f <;> cases g <;> rfl
  | succ n ih =>
    intro buf hb f g hf hg
    cases buf with
    | nil => cases f <;> cases g <;> rfl
    | cons b t =>
      cases f with
      | zero => simp at hf
      | succ f2 =>
        cases g with
        | zero => simp at hg
        | succ g2 =>
          simp only [countCommandsF]
          cases hp : parseReply (b :: t) with
          | ok m rest =>
            have hbd := parseReply_bound hp
            simp only [List.length_cons] at hbd hb hf hg
            cases m with
            | nil => rfl
            | simpleString s => rfl
            | error s => rfl
            | integer i => rfl
            | bulkString bs => rfl
            | array a =>
              cases a with
              | none => rfl
              | some ms =>
                show (countCommandsF f2 rest).map (· + 1) =
                  (countCommandsF g2 rest).map (· + 1)
                rw [ih rest (by omega) f2 g2 (by omega) (by omega)]
          | needMore => rfl
          | malformed => rfl
          | outOfFuel => rfl

theorem countCommands_cons (b : Nat) (t : List Nat) :
    countCommands (b :: t) = match parseReply (b :: t) with
      | .ok (.array (some _)) rest => (countCommands rest).map (· + 1)
      | _ => none := by
  show countCommandsF (t.length + 1) (b :: t) = _
  simp only [countCommandsF]
  cases hp : parseReply (b :: t) with
  | ok m rest =>
    have hbd := parseReply_bound hp
    simp only [List.length_cons] at hbd
    cases m with
    | nil => rfl
    | simpleString s => rfl
    | error s => rfl
    | integer i => rfl
    | bulkString bs => rfl
    | array a =>
      cases a with
      | none => rfl
      | some ms =>
        show (countCommandsF t.length rest).map (· + 1) =
          (countCommands rest).map (· + 1)
        rw [countCommandsF_mono t.length rest (by omega) t.length rest.length
          (by omega) (by omega)]
        rfl
  | needMore => rfl
  | malformed => rfl
  | outOfFuel => rfl

theorem countCommands_append :
    ∀ (n : Nat) (buf : List Nat), buf.length ≤ n →
    ∀ (c : List Nat) (a k : Nat), countCommands buf = some a →
    countCommands c = some k →
    countCommands (buf ++ c) = some (a + k) := by
  intro n
  induction n with
  | zero =>
    intro buf hb c a k hbuf hc
    have hnil : buf = [] := List.length_eq_zero.mp (by omega)
    subst hnil
    rw [countCommands_nil] at hbuf
    simp only [Option.some.injEq] at hbuf
    subst hbuf
    simpa using hc
  | succ n ih =>
    intro buf hb c a k hbuf hc
    cases buf with
    | nil =>
      rw [countCommands_nil] at hbuf
      simp only [Option.some.injEq] at hbuf
      subst hbuf
      simpa using hc
    | cons b t =>
      rw [countCommands_cons] at hbuf
      split at hbuf
      · rename_i ms rest hp
        cases hrest : countCommands rest with
        | none => rw [hrest] at hbuf; simp at hbuf
        | some a2 =>
          rw [hrest] at hbuf
          simp only [Option.map_some', Option.some.injEq] at hbuf
          have hbd := parseReply_bound hp
          simp only [List.length_cons] at hbd hb
          have hap := parseReply_append c hp
          rw [List.cons_append, countCommands_cons]
          rw [List.cons_append] at hap
          simp only [hap]
          rw [ih rest (by omega) c a2 k hrest hc]
          simp only [Option.map_some', Option.some.injEq]
          omega
      · exact Option.noConfusion hbuf

theorem countCommands_encodeCommand (comps : List (List Nat)) :
    countCommands (encodeCommand comps) = some 1 := by
  have h := parseReply_encodeCommand comps []
  rw [List.append_nil] at h
  have hne : ∃ b t, encodeCommand comps = b :: t := ⟨42, _, rfl⟩
  obtain ⟨b, t, hbt⟩ := hne
  rw [hbt]
  rw [countCommands_cons]
  rw [hbt] at h
  simp only [h]
  rw [countCommands_nil]
  rfl

/-! ### Lemmas about the request (encoder) state machine -/

theorem applyAdd_preserves (st : RedisRequestState) (op : AddOp)
    (hst : countCommands st.buf = some st.ncommand) :
    countCommands (applyAdd st op).2.buf = some (applyAdd st op).2.ncommand := by
  have hby : ∀ comps, countCommands (AddCommandByComponents st comps).2.buf =
      some (AddCommandByComponents st comps).2.ncommand := by
    intro comps
    unfold AddCommandByComponents
    split
    · exact hst
    · show countCommands (st.buf ++ encodeCommand comps) = some (st.ncommand + 1)
      exact countCommands_append st.buf.length st.buf (Nat.le_refl _)
        (encodeCommand comps) st.ncommand 1 hst
        (countCommands_encodeCommand comps)
  cases op with
  | byComponents comps => exact hby comps
  | formatted toks =>
    cases toks with
    | none => exact hst
    | some toks2 => exact hby toks2

theorem applyAdds_invariant (ops : List AddOp) :
    countCommands (applyAdds ops).buf = some (applyAdds ops).ncommand := by
  have key : ∀ (l : List AddOp) (st : RedisRequestState),
      countCommands st.buf = some st.ncommand →
      countCommands (l.foldl (fun st op => (applyAdd st op).2) st).buf =
        some (l.foldl (fun st op => (applyAdd st op).2) st).ncommand := by
    intro l
    induction l with
    | nil => intro st hst; exact hst
    | cons op t ih =>
      intro st hst
      simp only [List.foldl_cons]
      exact ih _ (applyAdd_preserves st op hst)
  exact key ops initialRequest countCommands_nil

theorem applyAdd_failed (st : RedisRequestState) (op : AddOp)
    (h : (applyAdd st op).1 = false) :
    (applyAdd st op).2.buf = st.buf ∧
      (applyAdd st op).2.ncommand = st.ncommand ∧
      (applyAdd st op).2.hasError = true := by
  have hby : ∀ comps, (AddCommandByComponents st comps).1 = false →
      (AddCommandByComponents st comps).2.buf = st.buf ∧
        (AddCommandByComponents st comps).2.ncommand = st.ncommand ∧
        (AddCommandByComponents st comps).2.hasError = true := by
    intro comps hc
    unfold AddCommandByComponents at *
    split at hc
    · split
      · exact ⟨rfl, rfl, rfl⟩
      · rename_i h1 h2
        exact absurd h1 h2
    · simp at hc
  cases op with
  | byComponents comps => exact hby comps h
  | formatted toks =>
    cases toks with
    | none => exact ⟨rfl, rfl, rfl⟩
    | some toks2 => exact hby toks2 h

theorem applyAdd_success (st : RedisRequestState) (op : AddOp)
    (h : (applyAdd st op).1 = true) :
    ∃ toks, toks ≠ [] ∧
      (applyAdd st op).2.buf = st.buf ++ encodeCommand toks ∧
      (applyAdd st op).2.ncommand = st.ncommand + 1 ∧
      (applyAdd st op).2.hasError = st.hasError := by
  have hby : ∀ comps, (AddCommandByComponents st comps).1 = true →
      ∃ toks, toks ≠ [] ∧
        (AddCommandByComponents st comps).2.buf = st.buf ++ encodeCommand toks ∧
        (AddCommandByComponents st comps).2.ncommand = st.ncommand + 1 ∧
        (AddCommandByComponents st comps).2.hasError = st.hasError := by
    intro comps hc
    unfold AddCommandByComponents at *
    split at hc
    · simp at hc
    · rename_i hne
      rw [if_neg hne]
      refine ⟨comps, ?_, rfl, rfl, rfl⟩
      intro hnil
      rw [hnil] at hne
      exact hne rfl
  cases op with
  | byComponents comps => exact hby comps h
  | formatted toks =>
    cases toks with
    | none => simp [applyAdd] at h
    | some toks2 => exact hby toks2 h

theorem applyAdd_sticky (st : RedisRequestState) (op : AddOp)
    (h : st.hasError = true) : (applyAdd st op).2.hasError = true := by
  have hby : ∀ comps, (AddCommandByComponents st comps).2.hasError = true := by
    intro comps
    unfold AddCommandByComponents
    split
    · rfl
    · exact h
  cases op with
  | byComponents comps => exact hby comps
  | formatted toks =>
    cases toks with
    | none => rfl
    | some toks2 => exact hby toks2

/-! ### Lemmas about the response (decoder) state machine -/

theorem pushReply_nreply (st : RedisResponseState) (m : RedisMessage) :
    (pushReply st m).nreply = st.nreply + 1 := by
  unfold pushReply
  split
  · rename_i h0
    show 1 = st.nreply + 1
    omega
  · rfl

theorem pushReply_failed (st : RedisResponseState) (m : RedisMessage) :
    (pushReply st m).failed = st.failed := by
  unfold pushReply
  split <;> rfl

theorem pushReply_first (st : RedisResponseState) (m : RedisMessage)
    (h : st.nreply ≠ 0) : (pushReply st m).firstReply = st.firstReply := by
  unfold pushReply
  split
  · rename_i h0
    exact absurd h0 h
  · rfl

theorem pushList_nreply (ms : List RedisMessage) :
    ∀ st, (ms.foldl pushReply st).nreply = st.nreply + ms.length := by
  induction ms with
  | nil => intro st; rfl
  | cons m t ih =>
    intro st
    simp only [List.foldl_cons, List.length_cons]
    rw [ih, pushReply_nreply]
    omega

theorem pushList_failed (ms : List RedisMessage) :
    ∀ st, (ms.foldl pushReply st).failed = st.failed := by
  induction ms with
  | nil => intro st; rfl
  | cons m t ih =>
    intro st
    simp only [List.foldl_cons]
    rw [ih, pushReply_failed]

theorem pushReply_WF {st : RedisResponseState} (h : WFResponse st)
    (m : RedisMessage) : WFResponse (pushReply st m) := by
  unfold WFResponse pushReply at *
  split
  · rename_i h0
    show st.otherReplies.length + min 1 1 = 1
    omega
  · rename_i h0
    show (st.otherReplies ++ [m]).length + min (st.nreply + 1) 1 = st.nreply + 1
    rw [List.length_append]
    simp only [List.length_cons, List.length_nil]
    omega

theorem pushList_WF (ms : List RedisMessage) :
    ∀ st, WFResponse st → WFResponse (ms.foldl pushReply st) := by
  induction ms with
  | nil => intro st h; exact h
  | cons m t ih =>
    intro st h
    simp only [List.foldl_cons]
    exact ih _ (pushReply_WF h m)

theorem pushReply_reply_preserved {st : RedisResponseState}
    (h : WFResponse st) (m : RedisMessage) (i : Int)
    (h0 : 0 ≤ i) (hi : i < (st.nreply : Int)) :
    replyImpl (pushReply st m) i = replyImpl st i := by
  have hz : ¬ st.nreply = 0 := by
    intro hz
    rw [hz] at hi
    simp at hi
    omega
  have hlen : st.otherReplies.length + 1 = st.nreply := by
    unfold WFResponse at h
    omega
  unfold replyImpl pushReply
  rw [if_neg hz]
  dsimp only
  simp only [List.length_append, List.length_cons, List.length_nil]
  split_ifs <;> first
    | rfl
    | (exfalso; omega)
    | (exact congrArg some (List.getD_append _ _ _ _ (by omega)))

theorem pushList_reply_preserved (ms : List RedisMessage) :
    ∀ st, WFResponse st → ∀ i : Int, 0 ≤ i → i < (st.nreply : Int) →
    replyImpl (ms.foldl pushReply st) i = replyImpl st i := by
  induction ms with
  | nil => intro st h i h0 hi; rfl
  | cons m t ih =>
    intro st h i h0 hi
    simp only [List.foldl_cons]
    rw [ih _ (pushReply_WF h m) i h0 (by rw [pushReply_nreply]; push_cast; omega)]
    exact pushReply_reply_preserved h m i h0 hi

/-! ### Lemmas about the dispatch / transaction state machine -/

theorem applyOutcome_instances (st : ConnState) (hh : Nat) (res : HResult) :
    (applyOutcome st hh res).instances = st.instances ∧
      (applyOutcome st hh res).nextIdx = st.nextIdx ∧
      (applyOutcome st hh res).connId = st.connId := by
  cases res with
  | OK =>
    unfold applyOutcome
    by_cases h : st.active = some hh
    · rw [if_pos h]
      exact ⟨rfl, rfl, rfl⟩
    · rw [if_neg h]
      exact ⟨rfl, rfl, rfl⟩
  | CONTINUE =>
    unfold applyOutcome
    cases hca : st.active with
    | none => exact ⟨rfl, rfl, rfl⟩
    | some v => exact ⟨rfl, rfl, rfl⟩

theorem processCommand_active_route (table : String → Bool) (st : ConnState)
    (name : String) (res : HResult) {hh : Nat} (h : st.active = some hh) :
    (processCommand table st name res).1 = .toHandler st.connId hh := by
  unfold processCommand
  rw [h]

theorem processCommand_active_continue (table : String → Bool) (st : ConnState)
    (name : String) {hh : Nat} (h : st.active = some hh) :
    (processCommand table st name .CONTINUE).2 = st := by
  unfold processCommand
  rw [h]
  show applyOutcome st hh .CONTINUE = st
  unfold applyOutcome
  rw [h]

theorem processCommand_active_ok (table : String → Bool) (st : ConnState)
    (name : String) {hh : Nat} (h : st.active = some hh) :
    (processCommand table st name .OK).2 = { st with active := none } := by
  unfold processCommand
  rw [h]
  show applyOutcome st hh .OK = { st with active := none }
  unfold applyOutcome
  rw [if_pos h]

theorem processCommand_lookup_continue (table : String → Bool) (st : ConnState)
    (name : String) (hactive : st.active = none) (htable : table name = true) :
    ∃ hh, (processCommand table st name .CONTINUE).1 = .toHandler st.connId hh ∧
      (processCommand table st name .CONTINUE).2.active = some hh ∧
      (processCommand table st name .CONTINUE).2.connId = st.connId := by
  unfold processCommand
  rw [hactive]
  rw [if_pos htable]
  cases hl : lookupInst st.instances name with
  | some hh =>
    refine ⟨hh, rfl, ?_, ?_⟩
    · show (applyOutcome st hh .CONTINUE).active = some hh
      unfold applyOutcome
      rw [hactive]
    · exact (applyOutcome_instances st hh .CONTINUE).2.2
  | none => exact ⟨st.nextIdx, rfl, rfl, rfl⟩

theorem processCommand_lookup_ok (table : String → Bool) (st : ConnState)
    (name : String) (hactive : st.active = none) (htable : table name = true) :
    (processCommand table st name .OK).2.active = none := by
  unfold processCommand
  rw [hactive]
  rw [if_pos htable]
  cases hl : lookupInst st.instances name with
  | some hh =>
    show (applyOutcome st hh .OK).active = none
    unfold applyOutcome
    show (if st.active = some hh then { st with active := none } else st).active = none
    rw [if_neg (by simp [hactive])]
    exact hactive
  | none => rfl

theorem runCommands_continue_run (table : String → Bool) (ms : List String) :
    ∀ (st : ConnState) (hh : Nat), st.active = some hh →
    runCommands table st (ms.map fun nm => (nm, HResult.CONTINUE)) =
      (List.replicate ms.length (.toHandler st.connId hh), st) := by
  induction ms with
  | nil => intro st hh h; rfl
  | cons nm t ih =>
    intro st hh h
    simp only [List.map_cons, runCommands, List.length_cons]
    rw [processCommand_active_route table st nm .CONTINUE h,
      processCommand_active_continue table st nm h, ih st hh h,
      List.replicate_succ]

theorem runCommands_cons (table : String → Bool) (st : ConnState)
    (name : String) (res : HResult) (l : List (String × HResult)) :
    runCommands table st ((name, res) :: l) =
      ((processCommand table st name res).1 ::
        (runCommands table (processCommand table st name res).2 l).1,
       (runCommands table (processCommand table st name res).2 l).2) := rfl

theorem runCommands_append_eq (table : String → Bool) (l1 l2 : List (String × HResult)) :
    ∀ st, runCommands table st (l1 ++ l2) =
      ((runCommands table st l1).1 ++
        (runCommands table (runCommands table st l1).2 l2).1,
       (runCommands table (runCommands table st l1).2 l2).2) := by
  induction l1 with
  | nil => intro st; rfl
  | cons c t ih =>
    intro st
    obtain ⟨name, res⟩ := c
    rw [List.cons_append, runCommands_cons, runCommands_cons, ih]
    rfl

theorem lookupInst_append_some {l : List (String × Nat)} {name : String}
    {v : Nat} (l2 : List (String × Nat)) (h : lookupInst l name = some v) :
    lookupInst (l ++ l2) name = some v := by
  induction l with
  | nil => simp [lookupInst] at h
  | cons p t ih =>
    obtain ⟨k, w⟩ := p
    rw [List.cons_append]
    unfold lookupInst at h ⊢
    split at h
    · rename_i hk
      rw [if_pos hk]
      exact h
    · rename_i hk
      rw [if_neg hk]
      exact ih h

theorem lookupInst_append_none {l : List (String × Nat)} {name : String}
    (l2 : List (String × Nat)) (h : lookupInst l name = none) :
    lookupInst (l ++ l2) name = lookupInst l2 name := by
  induction l with
  | nil => rfl
  | cons p t ih =>
    obtain ⟨k, w⟩ := p
    rw [List.cons_append]
    rw [show lookupInst ((k, w) :: (t ++ l2)) name =
        (if k = name then some w else lookupInst (t ++ l2) name) from rfl]
    rw [show lookupInst ((k, w) :: t) name =
        (if k = name then some w else lookupInst t name) from rfl] at h
    split at h
    · exact Option.noConfusion h
    · rename_i hk
      rw [if_neg hk]
      exact ih h

theorem processCommand_known_present (table : String → Bool) (st : ConnState)
    (name : String) (res : HResult) {hh : Nat}
    (hactive : st.active = none) (htable : table name = true)
    (hl : lookupInst st.instances name = some hh) :
    (processCommand table st name res).1 = .toHandler st.connId hh ∧
      (processCommand table st name res).2.instances = st.instances ∧
      (processCommand table st name res).2.nextIdx = st.nextIdx ∧
      (processCommand table st name res).2.connId = st.connId := by
  unfold processCommand
  rw [hactive, if_pos htable, hl]
  exact ⟨rfl, (applyOutcome_instances st hh res).1,
    (applyOutcome_instances st hh res).2.1, (applyOutcome_instances st hh res).2.2⟩

theorem processCommand_known_absent (table : String → Bool) (st : ConnState)
    (name : String) (res : HResult)
    (hactive : st.active = none) (htable : table name = true)
    (hl : lookupInst st.instances name = none) :
    (processCommand table st name res).1 = .toHandler st.connId st.nextIdx ∧
      (processCommand table st name res).2.instances =
        st.instances ++ [(name, st.nextIdx)] ∧
      (processCommand table st name res).2.nextIdx = st.nextIdx + 1 ∧
      (processCommand table st name res).2.connId = st.connId := by
  unfold processCommand
  rw [hactive, if_pos htable, hl]
  exact ⟨rfl, (applyOutcome_instances _ _ res).1,
    (applyOutcome_instances _ _ res).2.1, (applyOutcome_instances _ _ res).2.2⟩

/-! ### Lemmas about the null-terminated argument array -/

theorem argsCount_buildArgs (tokens : List (List Nat)) :
    argsCount (buildArgs tokens) = tokens.length := by
  unfold buildArgs
  induction tokens with
  | nil => rfl
  | cons t ts ih =>
    simp only [List.map_cons, List.cons_append, argsCount, List.length_cons]
    show argsCount (List.map some ts ++ [none]) + 1 = ts.length + 1
    rw [ih]

theorem parseOneF_star (f : Nat) (X : List Nat) :
    parseOneF (f + 1) (42 :: X) =
      (match readLine X with
       | none => ParseOne.needMore
       | some (line, r) =>
         match parseIntBytes line with
         | none => ParseOne.malformed
         | some cnt =>
           if cnt = -1 then ParseOne.ok (.array none) r
           else if cnt < -1 then ParseOne.malformed
           else
             match parseElemsF f cnt.toNat r with
             | .ok ms rest2 => ParseOne.ok (.array (some ms)) rest2
             | .needMore => ParseOne.needMore
             | .malformed => ParseOne.malformed
             | .outOfFuel => ParseOne.outOfFuel) := rfl

theorem parseOneF_bulk (f : Nat) (X : List Nat) :
    parseOneF (f + 1) (36 :: X) = parseBulkAfter X := rfl

theorem parseReply_unknown_head (c : Nat) (rest : List Nat)
    (h43 : c ≠ 43) (h45 : c ≠ 45) (h58 : c ≠ 58) (h36 : c ≠ 36)
    (h42 : c ≠ 42) : parseReply (c :: rest) = .malformed := by
  show parseOneF ((c :: rest).length + 1) (c :: rest) = .malformed
  simp only [parseOneF]
  rw [if_neg h43, if_neg h45, if_neg h58, if_neg h36, if_neg h42]

theorem parseReply_star_nonnumeric (line r : List Nat) (hno : ¬ 13 ∈ line)
    (hpi : parseIntBytes line = none) :
    parseReply (42 :: (line ++ 13 :: 10 :: r)) = .malformed := by
  show parseOneF ((42 :: (line ++ 13 :: 10 :: r)).length + 1)
    (42 :: (line ++ 13 :: 10 :: r)) = _
  rw [parseOneF_star]
  simp only [readLine_of_no_cr r hno, hpi]

theorem parseReply_star_neglen (line r : List Nat) (len : Int)
    (hno : ¬ 13 ∈ line) (hpi : parseIntBytes line = some len)
    (hlt : len < -1) :
    parseReply (42 :: (line ++ 13 :: 10 :: r)) = .malformed := by
  show parseOneF ((42 :: (line ++ 13 :: 10 :: r)).length + 1)
    (42 :: (line ++ 13 :: 10 :: r)) = _
  rw [parseOneF_star]
  simp only [readLine_of_no_cr r hno, hpi]
  rw [if_neg (by omega), if_pos hlt]

theorem parseReply_bulk_neglen (line r : List Nat) (len : Int)
    (hno : ¬ 13 ∈ line) (hpi : parseIntBytes line = some len)
    (hlt : len < -1) :
    parseReply (36 :: (line ++ 13 :: 10 :: r)) = .malformed := by
  show parseOneF ((36 :: (line ++ 13 :: 10 :: r)).length + 1)
    (36 :: (line ++ 13 :: 10 :: r)) = _
  rw [parseOneF_bulk]
  unfold parseBulkAfter
  simp only [readLine_of_no_cr r hno, hpi]
  rw [if_neg (by omega), if_pos hlt]

theorem ConsumePartialIOBuf_eq (st : RedisResponseState) (buf : List Nat)
    (count : Nat) (hf : st.failed = false) :
    ConsumePartialIOBuf st buf count =
      ((consumeReplies buf count).1,
       if (consumeReplies buf count).1 = .PARSE_ERROR_ABSOLUTELY_WRONG
       then { (consumeReplies buf count).2.1.foldl pushReply st
                with failed := true }
       else (consumeReplies buf count).2.1.foldl pushReply st,
       (consumeReplies buf count).2.2) := by
  unfold ConsumePartialIOBuf
  rw [if_neg (by simp [hf])]

/-! ### Claim theorems -/

/-- C8: decoding the byte stream of the ASCII text `$-1\r\n` yields the nil
BulkString, decoding `*0\r\n` yields the empty Array, decoding `+OK\r\n`
yields the non-nil SimpleString "OK", and the resulting values — as well as
the nil bulk string, nil array and empty array — compare pairwise unequal. -/
theorem decode_nil_empty_distinct :
    parseReply [36, 45, 49, 13, 10] = .ok (.bulkString none) [] ∧
    parseReply [42, 48, 13, 10] = .ok (.array (some [])) [] ∧
    parseReply [43, 79, 75, 13, 10] = .ok (.simpleString [79, 75]) [] ∧
    RedisMessage.bulkString none ≠ RedisMessage.array (some []) ∧
    RedisMessage.bulkString none ≠ RedisMessage.simpleString [79, 75] ∧
    RedisMessage.array (some []) ≠ RedisMessage.simpleString [79, 75] ∧
    RedisMessage.bulkString none ≠ RedisMessage.array none ∧
    RedisMessage.array none ≠ RedisMessage.array (some []) := by
  refine ⟨rfl, rfl, rfl, ?_, ?_, ?_, ?_, ?_⟩
  · intro h
    exact RedisMessage.noConfusion h
  · intro h
    exact RedisMessage.noConfusion h
  · intro h
    exact RedisMessage.noConfusion h
  · intro h
    exact RedisMessage.noConfusion h
  · intro h
    injection h with h2
    exact Option.noConfusion h2

/-- C3: the i-th reply accessor embedded verbatim from `redis.h` lines
164-170.  On a response holding one reply, an in-range index returns that
reply and an index at or past `reply_size()` returns the nil sentinel,
but a negative index — contrary to the claim and to the code's own comment
"If index is out-of-bound, nil reply is returned" — takes the
`index < reply_size()` branch and reads `_other_replies[index - 1]` out of
bounds (undefined behaviour, modelled as `none`), rather than returning the
nil sentinel. -/
theorem reply_negative_index_out_of_bounds :
    replyImpl ⟨.simpleString [79, 75], [], 1, false⟩ (-1) = none ∧
    replyImpl ⟨.simpleString [79, 75], [], 1, false⟩ 0 =
      some (.simpleString [79, 75]) ∧
    replyImpl ⟨.simpleString [79, 75], [], 1, false⟩ 5 = some .nil ∧
    replyImpl ⟨.simpleString [79, 75], [], 1, false⟩ (-1) ≠
      some RedisMessage.nil := by
  refine ⟨rfl, rfl, rfl, ?_⟩
  intro h
  exact Option.noConfusion h

/-- C10: the argument array handed to `RedisCommandHandler::Run` for a
command of n tokens holds the tokens in order at positions 0..n-1 followed
by a null entry at position n, so a handler can recover the argument count
by scanning to the first null. -/
theorem run_args_null_terminated (tokens : List (List Nat)) :
    (buildArgs tokens).length = tokens.length + 1 ∧
    (∀ i, i < tokens.length → (buildArgs tokens)[i]? = (tokens[i]?).map some) ∧
    (buildArgs tokens)[tokens.length]? = some none ∧
    argsCount (buildArgs tokens) = tokens.length := by
  refine ⟨?_, ?_, ?_, argsCount_buildArgs tokens⟩
  · simp [buildArgs]
  · intro i hi
    unfold buildArgs
    rw [List.getElem?_append_left (by simpa using hi)]
    exact List.getElem?_map some tokens i
  · unfold buildArgs
    rw [List.getElem?_append_right (by simp)]
    simp

/-- C10 witness at the command `set foo bar`: tokens at indices 0 and 2, the
null terminator at index 3, and the recovered count 3. -/
theorem run_args_null_terminated_witness :
    (buildArgs [[115, 101, 116], [102, 111, 111], [98, 97, 114]])[0]? =
      some (some [115, 101, 116]) ∧
    (buildArgs [[115, 101, 116], [102, 111, 111], [98, 97, 114]])[3]? =
      some none ∧
    argsCount (buildArgs [[115, 101, 116], [102, 111, 111], [98, 97, 114]]) = 3 := by
  refine ⟨?_, ?_, ?_⟩
  · have h := (run_args_null_terminated
      [[115, 101, 116], [102, 111, 111], [98, 97, 114]]).2.1 0 (by decide)
    simpa using h
  · exact (run_args_null_terminated
      [[115, 101, 116], [102, 111, 111], [98, 97, 114]]).2.2.1
  · exact (run_args_null_terminated
      [[115, 101, 116], [102, 111, 111], [98, 97, 114]]).2.2.2

/-- C7: `AddCommandByComponents` with n = 0 returns failure, sets the sticky
error flag and appends zero bytes, leaving `command_size()` unchanged; with
n > 0 it appends exactly one RESP array whose elements are the n components
taken verbatim (witnessed by parsing the appended bytes back). -/
theorem addCommandByComponents_spec (st : RedisRequestState) :
    (AddCommandByComponents st [] = (false, { st with hasError := true })) ∧
    (∀ comps : List (List Nat), comps ≠ [] →
      AddCommandByComponents st comps =
        (true, ⟨st.ncommand + 1, st.hasError, st.buf ++ encodeCommand comps⟩) ∧
      parseReply (encodeCommand comps) =
        .ok (.array (some (comps.map fun c => .bulkString (some c)))) [] ∧
      (comps.map fun c => RedisMessage.bulkString (some c)).length =
        comps.length) := by
  constructor
  · rfl
  · intro comps hne
    refine ⟨?_, ?_, by simp⟩
    · unfold AddCommandByComponents
      rw [if_neg (by
        intro hlen
        exact hne (List.length_eq_zero.mp hlen))]
    · have h := parseReply_encodeCommand comps []
      rwa [List.append_nil] at h

/-- C7 witness: adding the empty component list to a fresh request fails and
changes nothing but the sticky flag; adding `["set"]` appends one
one-element command array. -/
theorem addCommandByComponents_spec_witness :
    AddCommandByComponents initialRequest [] =
      (false, { initialRequest with hasError := true }) ∧
    AddCommandByComponents initialRequest [[115, 101, 116]] =
      (true, ⟨1, false, encodeCommand [[115, 101, 116]]⟩) ∧
    parseReply (encodeCommand [[115, 101, 116]]) =
      .ok (.array (some [.bulkString (some [115, 101, 116])])) [] := by
  refine ⟨(addCommandByComponents_spec initialRequest).1, ?_, ?_⟩
  · have h := ((addCommandByComponents_spec initialRequest).2
      [[115, 101, 116]] (by simp)).1
    simpa using h
  · exact ((addCommandByComponents_spec initialRequest).2
      [[115, 101, 116]] (by simp)).2.1

/-- C6: with the sticky error flag set, `SerializeTo` refuses and writes
nothing to the sink; the flag stays set across every further `Add*` call; a
failed `Add*` call sets the flag while leaving the already-encoded bytes
untouched; and only a fresh (or `Clear()`-ed) request has the flag unset. -/
theorem sticky_error_spec (st : RedisRequestState) (sink : List Nat) :
    (st.hasError = true → SerializeTo st sink = (false, sink)) ∧
    (st.hasError = false → SerializeTo st sink = (true, sink ++ st.buf)) ∧
    (∀ op, st.hasError = true → (applyAdd st op).2.hasError = true) ∧
    (∀ op, (applyAdd st op).1 = false →
      (applyAdd st op).2.hasError = true ∧ (applyAdd st op).2.buf = st.buf) ∧
    initialRequest.hasError = false := by
  refine ⟨?_, ?_, ?_, ?_, rfl⟩
  · intro h
    unfold SerializeTo
    rw [if_pos h]
  · intro h
    unfold SerializeTo
    rw [if_neg (by simp [h])]
  · intro op h
    exact applyAdd_sticky st op h
  · intro op h
    obtain ⟨hbuf, -, herr⟩ := applyAdd_failed st op h
    exact ⟨herr, hbuf⟩

/-- C6 witness: a request that failed an `AddCommandByComponents []` call
has the sticky flag set, refuses to serialize, and keeps the flag through a
subsequent successful-looking add. -/
theorem sticky_error_spec_witness :
    SerializeTo (applyAdd initialRequest (.byComponents [])).2 [] =
      (false, []) ∧
    (applyAdd (applyAdd initialRequest (.byComponents [])).2
      (.byComponents [[115]])).2.hasError = true := by
  constructor
  · exact (sticky_error_spec (applyAdd initialRequest (.byComponents [])).2 []).1 rfl
  · exact (sticky_error_spec (applyAdd initialRequest (.byComponents [])).2 []).2.2.1
      (.byComponents [[115]]) rfl

/-- C5: after any sequence of `Add*` calls on a fresh request,
`command_size()` equals the number of top-level RESP command arrays the
serialized buffer consists of; a failed call appends nothing and leaves the
count unchanged; a successful call appends exactly one complete command
array (one that parses back as a single RESP array) and increments the
count by one. -/
theorem command_size_invariant (ops : List AddOp) :
    countCommands (applyAdds ops).buf = some (applyAdds ops).ncommand ∧
    (∀ st op, (applyAdd st op).1 = false →
      (applyAdd st op).2.buf = st.buf ∧
      (applyAdd st op).2.ncommand = st.ncommand) ∧
    (∀ st op, (applyAdd st op).1 = true →
      ∃ toks, toks ≠ [] ∧
        (applyAdd st op).2.buf = st.buf ++ encodeCommand toks ∧
        countCommands (encodeCommand toks) = some 1 ∧
        (applyAdd st op).2.ncommand = st.ncommand + 1) := by
  refine ⟨applyAdds_invariant ops, ?_, ?_⟩
  · intro st op h
    obtain ⟨hbuf, hn, -⟩ := applyAdd_failed st op h
    exact ⟨hbuf, hn⟩
  · intro st op h
    obtain ⟨toks, hne, hbuf, hn, -⟩ := applyAdd_success st op h
    exact ⟨toks, hne, hbuf, countCommands_encodeCommand toks, hn⟩

/-- C5 witness: a successful add, a failed add and another successful add
leave a buffer of exactly two command arrays and a count of two. -/
theorem command_size_invariant_witness :
    countCommands (applyAdds [.byComponents [[115]], .byComponents [],
      .byComponents [[103], [104]]]).buf =
      some (applyAdds [.byComponents [[115]], .byComponents [],
        .byComponents [[103], [104]]]).ncommand ∧
    (applyAdds [.byComponents [[115]], .byComponents [],
      .byComponents [[103], [104]]]).ncommand = 2 :=
  ⟨(command_size_invariant [.byComponents [[115]], .byComponents [],
      .byComponents [[103], [104]]]).1, rfl⟩

/-- C4: with a non-empty active-handler slot every arriving command is
routed to the active handler irrespective of its name; `CONTINUE` leaves the
slot on that handler (setting it on first `CONTINUE` after a table
dispatch), `OK` clears it; consequently a handler returning `CONTINUE` for
commands 1..k-1 and `OK` for command k receives commands 1..k even with
differing names, after which the slot is empty so the next command goes
through a fresh table lookup. -/
theorem transaction_capture_spec (table : String → Bool) (st : ConnState) :
    (∀ name res hh, st.active = some hh →
      (processCommand table st name res).1 = .toHandler st.connId hh) ∧
    (∀ name hh, st.active = some hh →
      (processCommand table st name .CONTINUE).2 = st) ∧
    (∀ name hh, st.active = some hh →
      (processCommand table st name .OK).2.active = none) ∧
    (∀ name, st.active = none → table name = true →
      ∃ hh, (processCommand table st name .CONTINUE).1 =
          .toHandler st.connId hh ∧
        (processCommand table st name .CONTINUE).2.active = some hh) ∧
    (∀ (first last : String) (middle : List String),
      st.active = none → table first = true →
      ∃ hh, (runCommands table st ((first, HResult.CONTINUE) ::
          (middle.map fun nm => (nm, HResult.CONTINUE)) ++
          [(last, HResult.OK)])).1 =
        List.replicate (middle.length + 2) (Routed.toHandler st.connId hh) ∧
      (runCommands table st ((first, HResult.CONTINUE) ::
          (middle.map fun nm => (nm, HResult.CONTINUE)) ++
          [(last, HResult.OK)])).2.active = none) := by
  refine ⟨?_, ?_, ?_, ?_, ?_⟩
  · intro name res hh h
    exact processCommand_active_route table st name res h
  · intro name hh h
    exact processCommand_active_continue table st name h
  · intro name hh h
    rw [processCommand_active_ok table st name h]
  · intro name hactive htable
    obtain ⟨hh, h1, h2, -⟩ :=
      processCommand_lookup_continue table st name hactive htable
    exact ⟨hh, h1, h2⟩
  · intro first last middle hactive htable
    obtain ⟨hh, h1, h2, h3⟩ :=
      processCommand_lookup_continue table st first hactive htable
    have hrun1 : runCommands table st
        ((first, HResult.CONTINUE) :: middle.map fun nm => (nm, HResult.CONTINUE)) =
        (Routed.toHandler st.connId hh ::
          List.replicate middle.length (Routed.toHandler st.connId hh),
         (processCommand table st first .CONTINUE).2) := by
      rw [runCommands_cons, h1,
        runCommands_continue_run table middle _ hh h2, h3]
    have hrun2 : runCommands table (processCommand table st first .CONTINUE).2
        [(last, HResult.OK)] =
        ([Routed.toHandler st.connId hh],
         (processCommand table (processCommand table st first .CONTINUE).2
           last .OK).2) := by
      rw [runCommands_cons, processCommand_active_route table _ last .OK h2, h3]
      rfl
    refine ⟨hh, ?_, ?_⟩
    · rw [runCommands_append_eq, hrun1, hrun2]
      show (Routed.toHandler st.connId hh ::
          List.replicate middle.length (Routed.toHandler st.connId hh)) ++
          [Routed.toHandler st.connId hh] = _
      rw [← List.replicate_succ, ← List.replicate_succ']
    · rw [runCommands_append_eq, hrun1, hrun2]
      show (processCommand table (processCommand table st first .CONTINUE).2
        last .OK).2.active = none
      rw [processCommand_active_ok table _ last h2]

/-- C4 witness: on a fresh connection whose table knows `multi` and `set`,
the run `multi`(CONTINUE), `set`(CONTINUE), `exec`(OK) — where `exec` is not
even in the table — routes all three commands to one handler and leaves the
active slot empty. -/
theorem transaction_capture_spec_witness :
    ∃ hh, (runCommands tableMS {} ((("multi" : String), HResult.CONTINUE) ::
        (["set"].map fun nm => (nm, HResult.CONTINUE)) ++
        [(("exec" : String), HResult.OK)])).1 =
      List.replicate 3 (Routed.toHandler (({} : ConnState)).connId hh) ∧
    (runCommands tableMS {} ((("multi" : String), HResult.CONTINUE) ::
        (["set"].map fun nm => (nm, HResult.CONTINUE)) ++
        [(("exec" : String), HResult.OK)])).2.active = none :=
  (transaction_capture_spec tableMS {}).2.2.2.2 "multi" "exec" ["set"] rfl rfl

/-- C9 counterexample: on a connection whose table knows both `multi` and
`set`, after `multi` returns CONTINUE the very first `set` command is routed
to the `multi` handler instance (index 0) and no instance keyed `set` is
ever created — so a command's first use of a registered name neither
creates that name's instance nor routes to it, refuting the claim as
stated. -/
theorem handler_per_name_counterexample :
    (runCommands tableMS {} [("multi", .CONTINUE), ("set", .OK)]).1 =
      [.toHandler 0 0, .toHandler 0 0] ∧
    lookupInst (runCommands tableMS {}
      [("multi", .CONTINUE), ("set", .OK)]).2.instances "multi" = some 0 ∧
    lookupInst (runCommands tableMS {}
      [("multi", .CONTINUE), ("set", .OK)]).2.instances "set" = none ∧
    tableMS "set" = true :=
  ⟨rfl, rfl, rfl, rfl⟩

/-- C9 (amended): when a command is dispatched with the active-handler slot
empty, a registered name's per-connection instance is created at most once —
lazily, at the first such dispatch of that name — and every later command
with that name dispatched with the slot empty is routed to that identical
instance; existing name bindings are never rebound; and every routed handler
instance is tagged with the connection's own id, so distinct connections
never share instances. -/
theorem handler_per_name_amended (table : String → Bool) (st : ConnState)
    (name : String) (res : HResult) :
    (∀ hh, st.active = none → table name = true →
      lookupInst st.instances name = some hh →
      (processCommand table st name res).1 = .toHandler st.connId hh ∧
      (processCommand table st name res).2.instances = st.instances ∧
      (processCommand table st name res).2.nextIdx = st.nextIdx) ∧
    (st.active = none → table name = true →
      lookupInst st.instances name = none →
      (processCommand table st name res).1 = .toHandler st.connId st.nextIdx ∧
      (processCommand table st name res).2.instances =
        st.instances ++ [(name, st.nextIdx)] ∧
      (processCommand table st name res).2.nextIdx = st.nextIdx + 1 ∧
      lookupInst (processCommand table st name res).2.instances name =
        some st.nextIdx) ∧
    (∀ n2 v, lookupInst st.instances n2 = some v →
      lookupInst (processCommand table st name res).2.instances n2 = some v) ∧
    (∀ cid idx, (processCommand table st name res).1 = .toHandler cid idx →
      cid = st.connId) := by
  refine ⟨?_, ?_, ?_, ?_⟩
  · intro hh hactive htable hl
    obtain ⟨h1, h2, h3, -⟩ :=
      processCommand_known_present table st name res hactive htable hl
    exact ⟨h1, h2, h3⟩
  · intro hactive htable hl
    obtain ⟨h1, h2, h3, -⟩ :=
      processCommand_known_absent table st name res hactive htable hl
    refine ⟨h1, h2, h3, ?_⟩
    rw [h2, lookupInst_append_none _ hl]
    show (if name = name then some st.nextIdx else none) = some st.nextIdx
    rw [if_pos rfl]
  · intro n2 v hl
    unfold processCommand
    cases hactive : st.active with
    | some hh =>
      rw [(applyOutcome_instances st hh res).1]
      exact hl
    | none =>
      by_cases htable : table name
      · rw [if_pos htable]
        cases hl2 : lookupInst st.instances name with
        | some hh =>
          rw [(applyOutcome_instances st hh res).1]
          exact hl
        | none =>
          rw [(applyOutcome_instances _ _ res).1]
          exact lookupInst_append_some _ hl
      · rw [if_neg htable]
        exact hl
  · intro cid idx
    unfold processCommand
    cases hactive : st.active with
    | some hh =>
      intro h
      injection h with h1 h2
      exact h1.symm
    | none =>
      by_cases htable : table name
      · rw [if_pos htable]
        cases hl2 : lookupInst st.instances name with
        | some hh =>
          intro h
          injection h with h1 h2
          exact h1.symm
        | none =>
          intro h
          injection h with h1 h2
          exact h1.symm
      · rw [if_neg htable]
        intro h
        exact Routed.noConfusion h

/-- C9 (amended) witness: on a fresh connection, a first `set` dispatch
creates instance 0 and records the binding, and a second `set` dispatch is
routed to that same instance 0 with no new creation. -/
theorem handler_per_name_amended_witness :
    (processCommand tableMS {} "set" .OK).1 = .toHandler 0 0 ∧
    lookupInst (processCommand tableMS {} "set" .OK).2.instances "set" =
      some 0 ∧
    (processCommand tableMS (processCommand tableMS {} "set" .OK).2
      "set" .OK).1 = .toHandler 0 0 ∧
    (processCommand tableMS (processCommand tableMS {} "set" .OK).2
      "set" .OK).2.nextIdx = 1 := by
  have h1 := (handler_per_name_amended tableMS {} "set" .OK).2.1 rfl rfl rfl
  have h2 := (handler_per_name_amended tableMS
    (processCommand tableMS {} "set" .OK).2 "set" .OK).1 0 rfl rfl h1.2.2.2
  refine ⟨h1.1, h1.2.2.2, h2.1, ?_⟩
  rw [h2.2.2, h1.2.2.1]

/-- C2: every byte sequence outside the RESP grammar — an unknown type
prefix, a non-numeric length/count field, or a bulk/array length below -1 —
parses as malformed and makes `ConsumePartialIOBuf` return
`PARSE_ERROR_ABSOLUTELY_WRONG` and mark the decoder failed; a failed decoder
is terminal (every later call returns `PARSE_ERROR_ABSOLUTELY_WRONG` and
changes nothing), while the replies completed before the failure remain
retrievable through `reply(i)`. -/
theorem malformed_terminal_spec :
    (∀ (c : Nat) (rest : List Nat), c ≠ 43 → c ≠ 45 → c ≠ 58 → c ≠ 36 →
      c ≠ 42 → parseReply (c :: rest) = .malformed) ∧
    (∀ (line r : List Nat), ¬ 13 ∈ line → parseIntBytes line = none →
      parseReply (42 :: (line ++ 13 :: 10 :: r)) = .malformed) ∧
    (∀ (line r : List Nat) (len : Int), ¬ 13 ∈ line →
      parseIntBytes line = some len → len < -1 →
      parseReply (36 :: (line ++ 13 :: 10 :: r)) = .malformed ∧
      parseReply (42 :: (line ++ 13 :: 10 :: r)) = .malformed) ∧
    (∀ (st : RedisResponseState) (buf : List Nat) (count : Nat),
      st.failed = true →
      ConsumePartialIOBuf st buf count =
        (.PARSE_ERROR_ABSOLUTELY_WRONG, st, buf)) ∧
    (∀ (st : RedisResponseState) (buf : List Nat) (count : Nat),
      st.failed = false → parseReply buf = .malformed → 1 ≤ count →
      (ConsumePartialIOBuf st buf count).1 = .PARSE_ERROR_ABSOLUTELY_WRONG ∧
      (ConsumePartialIOBuf st buf count).2.1.failed = true) ∧
    (∀ (st : RedisResponseState) (buf : List Nat) (count : Nat),
      st.failed = false → WFResponse st →
      (ConsumePartialIOBuf st buf count).1 = .PARSE_ERROR_ABSOLUTELY_WRONG →
      ∀ i : Int, 0 ≤ i → i < (st.nreply : Int) →
        replyImpl (ConsumePartialIOBuf st buf count).2.1 i = replyImpl st i) := by
  refine ⟨parseReply_unknown_head, parseReply_star_nonnumeric, ?_, ?_, ?_, ?_⟩
  · intro line r len hno hpi hlt
    exact ⟨parseReply_bulk_neglen line r len hno hpi hlt,
      parseReply_star_neglen line r len hno hpi hlt⟩
  · intro st buf count hf
    unfold ConsumePartialIOBuf
    rw [if_pos hf]
  · intro st buf count hf hp hc
    obtain ⟨k, rfl⟩ : ∃ k, count = k + 1 := ⟨count - 1, by omega⟩
    rw [ConsumePartialIOBuf_eq st buf (k + 1) hf]
    have hcr : consumeReplies buf (k + 1) =
        (.PARSE_ERROR_ABSOLUTELY_WRONG, [], buf) := by
      simp only [consumeReplies, hp]
    rw [hcr]
    exact ⟨rfl, rfl⟩
  · intro st buf count hf hwf hwrong i h0 hi
    rw [ConsumePartialIOBuf_eq st buf count hf] at hwrong ⊢
    have hw : (consumeReplies buf count).1 = .PARSE_ERROR_ABSOLUTELY_WRONG :=
      hwrong
    show replyImpl (if (consumeReplies buf count).1 =
        .PARSE_ERROR_ABSOLUTELY_WRONG
      then { (consumeReplies buf count).2.1.foldl pushReply st
               with failed := true }
      else (consumeReplies buf count).2.1.foldl pushReply st) i = replyImpl st i
    rw [if_pos hw]
    show replyImpl ((consumeReplies buf count).2.1.foldl pushReply st) i =
      replyImpl st i
    exact pushList_reply_preserved _ st hwf i h0 hi

/-- C2 witness: the stream of the ASCII text `*X\r\n` is malformed; consuming
it wrecks a fresh decoder, and the wrecked decoder then rejects even the
well-formed stream `+OK\r\n`. -/
theorem malformed_terminal_spec_witness :
    parseReply [42, 88, 13, 10] = .malformed ∧
    (ConsumePartialIOBuf initialResponse [42, 88, 13, 10] 1).1 =
      .PARSE_ERROR_ABSOLUTELY_WRONG ∧
    (ConsumePartialIOBuf (ConsumePartialIOBuf initialResponse
      [42, 88, 13, 10] 1).2.1 [43, 79, 75, 13, 10] 1).1 =
      .PARSE_ERROR_ABSOLUTELY_WRONG := by
  have h1 : parseReply [42, 88, 13, 10] = .malformed :=
    malformed_terminal_spec.2.1 [88] [] (by decide) rfl
  have h2 := malformed_terminal_spec.2.2.2.2.1 initialResponse
    [42, 88, 13, 10] 1 rfl h1 (by omega)
  have h3 := malformed_terminal_spec.2.2.2.1 (ConsumePartialIOBuf
    initialResponse [42, 88, 13, 10] 1).2.1 [43, 79, 75, 13, 10] 1 h2.2
  exact ⟨h1, h2.1, by rw [h3]⟩

/-- C1: on a non-failed decoder, `ConsumePartialIOBuf` consumes only the
bytes of fully parsed replies (the unconsumed remainder is a suffix of the
input); it returns `PARSE_OK` exactly when `replyCount` new replies were
parsed (the reply count grew by exactly `replyCount`); on
`PARSE_ERROR_NOT_ENOUGH_DATA` fewer new replies were completed, the
remainder is an incomplete reply prefix, the decoder remains usable, and
calling again on the retained remainder with more data appended gives
exactly the outcome of having had all the data at once — the bytes of the
incomplete trailing reply are neither consumed nor duplicated. -/
theorem consumePartialIOBuf_spec (st : RedisResponseState) (buf : List Nat)
    (replyCount : Nat) (hf : st.failed = false) :
    (∃ pre, buf = pre ++ (ConsumePartialIOBuf st buf replyCount).2.2) ∧
    ((ConsumePartialIOBuf st buf replyCount).1 = .PARSE_OK ↔
      (ConsumePartialIOBuf st buf replyCount).2.1.nreply =
        st.nreply + replyCount) ∧
    ((ConsumePartialIOBuf st buf replyCount).1 =
        .PARSE_ERROR_NOT_ENOUGH_DATA →
      (ConsumePartialIOBuf st buf replyCount).2.1.nreply - st.nreply <
        replyCount ∧
      parseReply (ConsumePartialIOBuf st buf replyCount).2.2 = .needMore ∧
      (ConsumePartialIOBuf st buf replyCount).2.1.failed = false ∧
      ∀ extra, ConsumePartialIOBuf st (buf ++ extra) replyCount =
        ConsumePartialIOBuf (ConsumePartialIOBuf st buf replyCount).2.1
          ((ConsumePartialIOBuf st buf replyCount).2.2 ++ extra)
          (replyCount -
            ((ConsumePartialIOBuf st buf replyCount).2.1.nreply - st.nreply))) := by
  rw [ConsumePartialIOBuf_eq st buf replyCount hf]
  refine ⟨consumeReplies_suffix replyCount buf, ?_, ?_⟩
  · show (consumeReplies buf replyCount).1 = .PARSE_OK ↔
      (if (consumeReplies buf replyCount).1 = .PARSE_ERROR_ABSOLUTELY_WRONG
       then { (consumeReplies buf replyCount).2.1.foldl pushReply st
                with failed := true }
       else (consumeReplies buf replyCount).2.1.foldl pushReply st).nreply =
        st.nreply + replyCount
    by_cases hw : (consumeReplies buf replyCount).1 =
        .PARSE_ERROR_ABSOLUTELY_WRONG
    · rw [if_pos hw]
      constructor
      · intro hok
        rw [hok] at hw
        exact absurd hw (fun hc => ParseError.noConfusion hc)
      · intro hn
        exfalso
        have hn2 : ((consumeReplies buf replyCount).2.1.foldl
            pushReply st).nreply = st.nreply + replyCount := hn
        rw [pushList_nreply] at hn2
        have := (consumeReplies_wrong replyCount buf hw).2
        omega
    · rw [if_neg hw]
      rw [pushList_nreply]
      rw [consumeReplies_ok_iff replyCount buf]
      omega
  · intro hne
    have hne2 : (consumeReplies buf replyCount).1 =
        .PARSE_ERROR_NOT_ENOUGH_DATA := hne
    have hna := consumeReplies_need replyCount buf hne2
    have hnw : ¬ (consumeReplies buf replyCount).1 =
        .PARSE_ERROR_ABSOLUTELY_WRONG := by
      rw [hne2]
      exact fun hc => ParseError.noConfusion hc
    refine ⟨?_, hna.2, ?_, ?_⟩
    · show (if (consumeReplies buf replyCount).1 =
          .PARSE_ERROR_ABSOLUTELY_WRONG
        then { (consumeReplies buf replyCount).2.1.foldl pushReply st
                 with failed := true }
        else (consumeReplies buf replyCount).2.1.foldl pushReply st).nreply -
          st.nreply < replyCount
      rw [if_neg hnw, pushList_nreply]
      omega
    · show (if (consumeReplies buf replyCount).1 =
          .PARSE_ERROR_ABSOLUTELY_WRONG
        then { (consumeReplies buf replyCount).2.1.foldl pushReply st
                 with failed := true }
        else (consumeReplies buf replyCount).2.1.foldl pushReply st).failed =
          false
      rw [if_neg hnw, pushList_failed]
      exact hf
    · intro extra
      rw [ConsumePartialIOBuf_eq st (buf ++ extra) replyCount hf]
      have hXf : (if (consumeReplies buf replyCount).1 =
          .PARSE_ERROR_ABSOLUTELY_WRONG
        then { (consumeReplies buf replyCount).2.1.foldl pushReply st
                 with failed := true }
        else (consumeReplies buf replyCount).2.1.foldl pushReply st).failed =
          false := by
        rw [if_neg hnw, pushList_failed]
        exact hf
      rw [ConsumePartialIOBuf_eq _ _ _ hXf]
      rw [if_neg hnw]
      have harith : replyCount -
          (((consumeReplies buf replyCount).2.1.foldl pushReply st).nreply -
            st.nreply) =
          replyCount - (consumeReplies buf replyCount).2.1.length := by
        rw [pushList_nreply]
        omega
      rw [harith]
      rw [consumeReplies_resume replyCount buf hne2 extra]
      rw [List.foldl_append]

/-- C1 witness: consuming the single complete reply `+OK\r\n` with
`replyCount = 1` on a fresh decoder returns `PARSE_OK`, and the remainder
is a suffix of the input. -/
theorem consumePartialIOBuf_spec_witness :
    (ConsumePartialIOBuf initialResponse [43, 79, 75, 13, 10] 1).1 =
      .PARSE_OK ∧
    ∃ pre, [43, 79, 75, 13, 10] =
      pre ++ (ConsumePartialIOBuf initialResponse [43, 79, 75, 13, 10] 1).2.2 :=
  ⟨(consumePartialIOBuf_spec initialResponse [43, 79, 75, 13, 10] 1
      rfl).2.1.mpr rfl,
   (consumePartialIOBuf_spec initialResponse [43, 79, 75, 13, 10] 1 rfl).1⟩

end BrpcRedis
